import Mathlib

/-!
Verification of `urlnorm.py` (IntertwineIO/urlnorm), a URL normalization
library.  Strings are modelled as lists of natural numbers: Unicode code
points at the API boundary, raw bytes inside `unquote_safe` (which encodes
to UTF-8, rewrites percent escapes on the byte string, and decodes back).
Fallible operations return `Except UrlError` or `Option`.
-/

namespace Urlnorm

/-- Convert a Lean string literal to its list of Unicode code points,
the representation used throughout this development. -/
def str (s : String) : List Nat := s.data.map (fun c => c.toNat)

/-- `str.upper()` on a single ASCII character, as used by `item[:2].upper()`. -/
def upperHexChar (c : Nat) : Nat := if 97 ≤ c ∧ c ≤ 122 then c - 32 else c

/-- ASCII decimal digit test (`str.isdigit` on one character). -/
def isDigitB (c : Nat) : Bool := decide (48 ≤ c ∧ c ≤ 57)

/-- `host.isdigit()`: nonempty and all characters decimal digits. -/
def isAllDigits (s : List Nat) : Bool := decide (s ≠ []) && s.all isDigitB

/-- `int(host)` for an all-digits string. -/
def natOfDigits (s : List Nat) : Nat := s.foldl (fun acc c => 10 * acc + (c - 48)) 0

/-- Error kinds surfaced by the embedding.  `invalidUrl` models the
library's `InvalidUrl` exception; `indexError`, `typeError` and
`decodeError` model the interpreter-level `IndexError`, `TypeError` and
`UnicodeDecodeError` exceptions the code can also raise. -/
inductive UrlError where
  | invalidUrl
  | indexError
  | typeError
  | decodeError
deriving DecidableEq, Repr

deriving instance DecidableEq for Except

/-- The call `lower(s)` at lines 160 and 224.  Line 51 binds
`lower = string.ascii_lowercase` — `string.ascii_lowercase` exists in
both Python 2 and Python 3, so the `try` import always succeeds and
`lower` is the string constant `'abcdefghijklmnopqrstuvwxyz'`, never a
function.  Calling it raises `TypeError: 'str' object is not callable`,
whatever the argument. -/
def lower_call (_ : List Nat) : Except UrlError (List Nat) := .error .typeError

/-! ## UTF-8 encode / decode (`_utf8` and `_unicode`) -/

/-- UTF-8 encoding of one code point (standard layout; code points are
already `< 0x110000` for genuine strings). -/
def utf8EncodeChar (c : Nat) : List Nat :=
  if c < 128 then [c]
  else if c < 2048 then [192 + c / 64, 128 + c % 64]
  else if c < 65536 then [224 + c / 4096, 128 + c / 64 % 64, 128 + c % 64]
  else [240 + c / 262144, 128 + c / 4096 % 64, 128 + c / 64 % 64, 128 + c % 64]

/-- `_utf8`: UTF-8 encode a code-point string to bytes. -/
def utf8Encode (s : List Nat) : List Nat := (s.map utf8EncodeChar).flatten

/-- One step of strict UTF-8 decoding: the first code point and the
remaining bytes.  Surrogate code points are accepted, as Python 2's UTF-8
codec accepts them; overlong forms and values beyond U+10FFFF are
rejected. -/
def utf8DecodeOne : List Nat → Option (Nat × List Nat)
  | [] => none
  | c :: rest =>
    if c < 128 then some (c, rest)
    else if 194 ≤ c ∧ c ≤ 223 then
      match rest with
      | c2 :: rest2 =>
        if 128 ≤ c2 ∧ c2 ≤ 191 then some ((c - 192) * 64 + (c2 - 128), rest2) else none
      | [] => none
    else if 224 ≤ c ∧ c ≤ 239 then
      match rest with
      | c2 :: c3 :: rest3 =>
        if (if c = 224 then 160 ≤ c2 ∧ c2 ≤ 191 else 128 ≤ c2 ∧ c2 ≤ 191) ∧
            128 ≤ c3 ∧ c3 ≤ 191 then
          some ((c - 224) * 4096 + (c2 - 128) * 64 + (c3 - 128), rest3)
        else none
      | _ => none
    else if 240 ≤ c ∧ c ≤ 244 then
      match rest with
      | c2 :: c3 :: c4 :: rest4 =>
        if (if c = 240 then 144 ≤ c2 ∧ c2 ≤ 191
            else if c = 244 then 128 ≤ c2 ∧ c2 ≤ 143
            else 128 ≤ c2 ∧ c2 ≤ 191) ∧
            (128 ≤ c3 ∧ c3 ≤ 191) ∧ (128 ≤ c4 ∧ c4 ≤ 191) then
          some ((c - 240) * 262144 + (c2 - 128) * 4096 + (c3 - 128) * 64 + (c4 - 128),
            rest4)
        else none
      | _ => none
    else none

/-- Fuel-bounded UTF-8 decoding loop; each step consumes at least one
byte, so fuel equal to the byte count always suffices and the zero-fuel
branch is unreachable. -/
def utf8DecodeGo : Nat → List Nat → Option (List Nat)
  | _, [] => some []
  | 0, _ :: _ => none
  | fuel + 1, c :: rest =>
    match utf8DecodeOne (c :: rest) with
    | none => none
    | some (v, rest2) => (utf8DecodeGo fuel rest2).map (fun t => v :: t)

/-- `_unicode`: strict UTF-8 decoding of a byte string; `none` models a
`UnicodeDecodeError`. -/
def utf8Decode (s : List Nat) : Option (List Nat) := utf8DecodeGo s.length s

/-! ## Percent-escape codec (`unquote_safe` and friends) -/

/-- The four per-component unsafe sets from the source. -/
def params_unsafe_list : List Nat := str ("?=+%#;")

/-- Query-string unsafe set. -/
def qs_unsafe_list : List Nat := str ("?&=+%#")

/-- Fragment unsafe set. -/
def fragment_unsafe_list : List Nat := str ("+%#")

/-- Path unsafe set. -/
def path_unsafe_list : List Nat := str ("/?;%+#")

/-- Lowercase hex digit of a value `< 16` (`'%02x'` alphabet). -/
def lowHexDigit (n : Nat) : Nat := if n < 10 then 48 + n else 87 + n

/-- Uppercase hex digit of a value `< 16` (`'%02X'` alphabet). -/
def upHexDigit (n : Nat) : Nat := if n < 10 then 48 + n else 55 + n

/-- `'%02x' % i`: two lowercase hex digits. -/
def hexLower (i : Nat) : List Nat := [lowHexDigit (i / 16), lowHexDigit (i % 16)]

/-- `'%02X' % i`: two uppercase hex digits. -/
def hexUpper (i : Nat) : List Nat := [upHexDigit (i / 16), upHexDigit (i % 16)]

/-- `_hextochr` built exactly as in the source: all 256 lowercase keys,
then all 256 uppercase keys (digit-only keys coincide, with equal values,
so lookup order is immaterial). -/
def hextochr : List (List Nat × Nat) :=
  ((List.range 256).map (fun i => (hexLower i, i))) ++
    ((List.range 256).map (fun i => (hexUpper i, i)))

/-- Dictionary lookup `_hextochr[k]`. -/
def lookupHex (k : List Nat) : Option Nat :=
  (hextochr.find? (fun p => p.1 = k)).map (fun p => p.2)

/-- Character admissible in a lowercase `_hextochr` key (`'%02x'`). -/
def isLowHex (c : Nat) : Bool := decide ((48 ≤ c ∧ c ≤ 57) ∨ (97 ≤ c ∧ c ≤ 102))

/-- Character admissible in an uppercase `_hextochr` key (`'%02X'`). -/
def isUpHex (c : Nat) : Bool := decide ((48 ≤ c ∧ c ≤ 57) ∨ (65 ≤ c ∧ c ≤ 70))

/-- Value of a hex digit character (either case). -/
def hexVal (c : Nat) : Nat :=
  if c ≤ 57 then c - 48 else if c ≤ 70 then c - 55 else c - 87

/-- A two-character key present in `_hextochr`: both characters lowercase
hex digits or both uppercase hex digits (decimal digits count as both). -/
def validHexPair (a b : Nat) : Bool :=
  (isLowHex a && isLowHex b) || (isUpHex a && isUpHex b)

/-- A chunk (text following a `'%'`) is ASCII-safe for the unsafe set `u`:
its leading escape, when valid, either decodes below 0x80 or is one of the
escapes the codec preserves (unsafe or `< 20`). -/
def chunkSafeB (u : List Nat) : List Nat → Bool
  | a :: b :: _ =>
    !validHexPair a b || decide (16 * hexVal a + hexVal b < 128) ||
      decide (16 * hexVal a + hexVal b ∈ u) || decide (16 * hexVal a + hexVal b < 20)
  | _ => true

/-- Processing of one chunk `res[i]` (the text following one `'%'`) in
`unquote_safe`'s loop: try `_hextochr[item[:2]]`; on success keep the
escape (uppercased) if the byte is in the unsafe set or `< 20`, else
decode it; on `KeyError` re-insert the literal `'%'`. -/
def processChunk (u : List Nat) (item : List Nat) : List Nat :=
  match lookupHex (item.take 2) with
  | some v =>
    if v ∈ u ∨ v < 20 then 37 :: ((item.take 2).map upperHexChar ++ item.drop 2)
    else v :: item.drop 2
  | none => 37 :: item

/-- `s.split(d)` for a one-character separator, Python semantics. -/
def splitOnC (d : Nat) : List Nat → List (List Nat)
  | [] => [[]]
  | c :: rest =>
    if c = d then [] :: splitOnC d rest
    else
      match splitOnC d rest with
      | h :: t => (c :: h) :: t
      | [] => [[c]]

/-- The byte-level body of `unquote_safe`: split on `'%'`, process every
chunk after the first, and join. -/
def unquoteRaw (s : List Nat) (u : List Nat) : List Nat :=
  match splitOnC 37 s with
  | [] => []
  | h :: t => h ++ (t.map (processChunk u)).flatten

/-- `unquote_safe(s, unsafe_list)`: UTF-8 encode, rewrite percent escapes
on the byte string, and decode the result back to text.  `none` models the
`UnicodeDecodeError` escaping from the final `_unicode` call. -/
def unquote_safe (s : List Nat) (u : List Nat) : Option (List Nat) :=
  utf8Decode (unquoteRaw (utf8Encode s) u)

/-- `unquote_path`. -/
def unquote_path (s : List Nat) : Option (List Nat) := unquote_safe s path_unsafe_list

/-- `unquote_params`. -/
def unquote_params (s : List Nat) : Option (List Nat) := unquote_safe s params_unsafe_list

/-- `unquote_qs`. -/
def unquote_qs (s : List Nat) : Option (List Nat) := unquote_safe s qs_unsafe_list

/-- `unquote_fragment`. -/
def unquote_fragment (s : List Nat) : Option (List Nat) := unquote_safe s fragment_unsafe_list

/-! ## Path collapsing (`_collapse` regex and `norm_path`)

The pattern `([^/]+/\.\./?|/\./|//|/\.$|/\.\.$)` is compiled by hand.  The
five alternatives are mutually exclusive at any given position (the first
requires a non-slash first character, the others differ in their second or
third character / end anchor), and are tried in regex order; the leftmost
matching position wins.  A `$` anchor matches at the end of the string or
just before a final newline, exactly as in Python's `re`. -/

/-- `$` anchor: end of string or immediately before a trailing newline. -/
def atDollar : List Nat → Bool
  | [] => true
  | [10] => true
  | _ => false

/-- Alternative `[^/]+/\.\./?`: length of the match at the head of `s`,
if any.  `[^/]+` is greedy, but since it cannot cross a `/` the maximal
run is the only candidate. -/
def alt1 (s : List Nat) : Option Nat :=
  if s.takeWhile (fun c => c ≠ 47) = [] then none
  else
    match s.drop (s.takeWhile (fun c => c ≠ 47)).length with
    | 47 :: 46 :: 46 :: rest =>
      some ((s.takeWhile (fun c => c ≠ 47)).length + 3 +
        (if rest.head? = some 47 then 1 else 0))
    | _ => none

/-- Alternative `/\./`. -/
def alt2 : List Nat → Option Nat
  | 47 :: 46 :: 47 :: _ => some 3
  | _ => none

/-- Alternative `//`. -/
def alt3 : List Nat → Option Nat
  | 47 :: 47 :: _ => some 2
  | _ => none

/-- Alternative `/\.$`. -/
def alt4 : List Nat → Option Nat
  | 47 :: 46 :: rest => if atDollar rest then some 2 else none
  | _ => none

/-- Alternative `/\.\.$`. -/
def alt5 : List Nat → Option Nat
  | 47 :: 46 :: 46 :: rest => if atDollar rest then some 3 else none
  | _ => none

/-- Length of the `_collapse` match starting exactly at the head of `s`,
alternatives tried in regex order. -/
def matchAt (s : List Nat) : Option Nat :=
  match alt1 s with
  | some k => some k
  | none =>
    match alt2 s with
    | some k => some k
    | none =>
      match alt3 s with
      | some k => some k
      | none =>
        match alt4 s with
        | some k => some k
        | none => alt5 s

/-- Leftmost `_collapse` match: start position and length. -/
def findMatch : List Nat → Option (Nat × Nat)
  | [] => none
  | c :: rest =>
    match matchAt (c :: rest) with
    | some k => some (0, k)
    | none => (findMatch rest).map (fun p => (p.1 + 1, p.2))

/-- `_collapse.sub('/', path, 1)` when it changes the string: replace the
leftmost match by `/`, or `none` when there is no match. -/
def subst1 (s : List Nat) : Option (List Nat) :=
  (findMatch s).map (fun p => s.take p.1 ++ 47 :: s.drop (p.1 + p.2))

/-- Fuel-bounded iteration of single leftmost substitutions.  Every
substitution strictly shrinks the string (`subst1_length` below), so with
fuel `s.length + 1` the zero-fuel branch is unreachable and this computes
the fixed point of the loop in `norm_path` (a substitution always changes
the string, so the loop stops exactly when there is no match). -/
def collapseIter (fuel : Nat) (s : List Nat) : List Nat :=
  match fuel with
  | 0 => s
  | f + 1 =>
    match subst1 s with
    | none => s
    | some t => collapseIter f t

/-- The fixed-point loop of `norm_path`. -/
def collapseFix (s : List Nat) : List Nat := collapseIter (s.length + 1) s

/-- `_relative_schemes`. -/
def relative_schemes : List (List Nat) :=
  [str ("http"), str ("https"), str ("ws"), str ("wss"), str ("itms"),
   str ("news"), str ("snews"), str ("nntp"), str ("snntp"), str ("ftp"),
   str ("file"), []]

/-- `norm_path(scheme, path)`: collapse for hierarchical schemes, unquote
with the path unsafe set, default empty to `/`. -/
def norm_path (scheme path : List Nat) : Option (List Nat) :=
  let p := if scheme ∈ relative_schemes then collapseFix path else path
  match unquote_path p with
  | none => none
  | some q => some (if q = [] then [47] else q)

/-! ## `int2ip` -/

/-- `MAX_IP`. -/
def MAX_IP : Nat := 4294967295

/-- Fuel-bounded decimal digit emitter; the quotient shrinks at every
step, so fuel `n + 1` always suffices and the zero-fuel branch is
unreachable. -/
def natReprGo (fuel n : Nat) : List Nat :=
  match fuel with
  | 0 => []
  | f + 1 => if n < 10 then [48 + n] else natReprGo f (n / 10) ++ [48 + n % 10]

/-- Decimal representation of a natural number (`'%d' % n`). -/
def natRepr (n : Nat) : List Nat := natReprGo (n + 1) n

/-- `int2ip(ipnum)`: the dotted quad of a 32-bit integer, `TypeError`
outside `[0, MAX_IP]`. -/
def int2ip (ipnum : Int) : Except UrlError (List Nat) :=
  if (MAX_IP : Int) < ipnum ∨ ipnum < 0 then .error .typeError
  else
    .ok (natRepr (ipnum.toNat >>> 24) ++ 46 :: natRepr (ipnum.toNat >>> 16 &&& 255) ++
      46 :: natRepr (ipnum.toNat >>> 8 &&& 255) ++ 46 :: natRepr (ipnum.toNat &&& 255))

/-! ## The `_server_authority` regex

`^(?:([^\@]+)\@)?([^\:\[\]]+|\[[a-fA-F0-9\:\.]+\])(?:\:(.*?))?$` is
compiled by hand, preserving the backtracking semantics:

* `([^\@]+)\@` greedily matches exactly the (nonempty) text before the
  first `@`, since `[^\@]+` cannot cross an `@`.  If the remainder fails
  to match, the engine falls back to skipping the optional group.
* `[^\:\[\]]+` greedily matches the maximal colon/bracket-free run.
  Shorter runs can never satisfy the continuation (which needs `:` or the
  end directly after the run), so no further backtracking arises.
* `(?:\:(.*?))?$` captures everything after the first `:` following the
  host; `.` does not match a newline, and `$` also matches just before a
  final newline, so a port containing an interior newline fails while a
  single trailing newline is left out of every group. -/

/-- Character admissible inside the bracketed (IPv6) host alternative. -/
def ipv6Char (c : Nat) : Bool :=
  decide ((48 ≤ c ∧ c ≤ 57) ∨ (97 ≤ c ∧ c ≤ 102) ∨ (65 ≤ c ∧ c ≤ 70) ∨ c = 58 ∨ c = 46)

/-- Match of `(?:\:(.*?))?$` against the text following the host; returns
the captured port, if the optional group matched. -/
def afterHost (rest : List Nat) : Option (Option (List Nat)) :=
  if rest = [] then some none
  else if rest = [10] then some none
  else if rest.head? = some 58 then
    if 10 ∈ rest.tail then
      if rest.tail.getLast? = some 10 ∧ 10 ∉ rest.tail.dropLast then
        some (some rest.tail.dropLast)
      else none
    else some (some rest.tail)
  else none

/-- Match of `([^\:\[\]]+|\[[a-fA-F0-9\:\.]+\])(?:\:(.*?))?$` against `t`:
the host and optional port. -/
def parseHostPort (t : List Nat) : Option (List Nat × Option (List Nat)) :=
  match t with
  | [] => none
  | c :: _ =>
    if c ≠ 58 ∧ c ≠ 91 ∧ c ≠ 93 then
      (afterHost (t.drop (t.takeWhile (fun x => x ≠ 58 ∧ x ≠ 91 ∧ x ≠ 93)).length)).map
        (fun po => (t.takeWhile (fun x => x ≠ 58 ∧ x ≠ 91 ∧ x ≠ 93), po))
    else if c = 91 then
      if (t.drop 1).takeWhile ipv6Char = [] then none
      else
        match t.drop (1 + ((t.drop 1).takeWhile ipv6Char).length) with
        | 93 :: rest =>
          (afterHost rest).map
            (fun po => (91 :: ((t.drop 1).takeWhile ipv6Char ++ [93]), po))
        | _ => none
    else none

/-- `_server_authority.match(netloc).groups()`: the optional userinfo,
host, and optional port, or `none` when the regex does not match. -/
def serverAuthorityMatch (s : List Nat) :
    Option (Option (List Nat) × List Nat × Option (List Nat)) :=
  let pre := s.takeWhile (fun c => c ≠ 64)
  if pre.length = s.length then
    (parseHostPort s).map (fun hp => (none, hp.1, hp.2))
  else if pre = [] then
    (parseHostPort s).map (fun hp => (none, hp.1, hp.2))
  else
    match parseHostPort (s.drop (pre.length + 1)) with
    | some hp => some (some pre, hp.1, hp.2)
    | none => (parseHostPort s).map (fun hp => (none, hp.1, hp.2))

/-! ## IDN decoding

The source calls `subdomain.decode('idna')`, i.e. the Python standard
library's ACE-to-Unicode conversion, which is outside this repository. -/

/-- Punycode digit value: `a`-`z`/`A`-`Z` are 0-25, `0`-`9` are 26-35. -/
def punyDigit (c : Nat) : Option Nat :=
  if 97 ≤ c ∧ c ≤ 122 then some (c - 97)
  else if 65 ≤ c ∧ c ≤ 90 then some (c - 65)
  else if 48 ≤ c ∧ c ≤ 57 then some (c - 22)
  else none

/-- Threshold `t(j)` for the `j`-th digit under the current bias
(clamped to `[tmin, tmax] = [1, 26]`). -/
def punyT (j bias : Nat) : Nat :=
  let k := 36 * (j + 1)
  if k ≤ bias then 1
  else if bias + 26 ≤ k then 26
  else k - bias

/-- Decode one generalized variable-length integer from the extended
string; returns the value and the remaining input. -/
def punyDecodeInt : List Nat → Nat → Nat → Nat → Nat → Option (Nat × List Nat)
  | [], _, _, _, _ => none
  | c :: rest, bias, j, w, acc =>
    match punyDigit c with
    | none => none
    | some d =>
      let acc2 := acc + d * w
      let t := punyT j bias
      if d < t then some (acc2, rest)
      else punyDecodeInt rest bias (j + 1) (w * (36 - t)) acc2

/-- Fuel-bounded loop of the bias adaptation (RFC 3492 §6.1); `delta`
shrinks at every step, so fuel `delta + 1` always suffices. -/
def punyAdaptLoop (fuel delta k : Nat) : Nat × Nat :=
  match fuel with
  | 0 => (delta, k)
  | f + 1 =>
    if 455 < delta then punyAdaptLoop f (delta / 35) (k + 36) else (delta, k)

/-- Bias adaptation entry point. -/
def punyAdapt (delta numpoints : Nat) (firsttime : Bool) : Nat :=
  let d1 := if firsttime then delta / 700 else delta / 2
  let d2 := d1 + d1 / numpoints
  let (d3, k) := punyAdaptLoop (d2 + 1) d2 0
  k + 36 * d3 / (d3 + 38)

/-- Main Punycode decoding loop (fuel-bounded; each iteration consumes at
least one character of `ext`, so `ext.length + 1` fuel always suffices). -/
def punyLoop (fuel : Nat) (base ext : List Nat) (n i bias : Nat) (first : Bool) :
    Option (List Nat) :=
  match fuel with
  | 0 => none
  | fuel2 + 1 =>
    match ext with
    | [] => some base
    | c :: rest =>
      match punyDecodeInt (c :: rest) bias 0 1 0 with
      | none => none
      | some (i2, rest2) =>
        let n2 := n + i2 / (base.length + 1)
        if 1114111 < n2 then none
        else
          let pos := i2 % (base.length + 1)
          let base2 := base.take pos ++ n2 :: base.drop pos
          punyLoop fuel2 base2 rest2 n2 (pos + 1) (punyAdapt (i2 - i) base2.length first)
            false

/-- Modelled from the spec: the standard Punycode/ACE-to-Unicode decoding
of a single domain label (the part after the `xn--` prefix), which the
source obtains from the Python standard library's `idna`/`punycode`
codecs; those codecs are not part of this repository.  The delimiter is
the last `-`; the basic part must be ASCII; decoding follows RFC 3492
with `initial_n = 128`, `initial_bias = 72`. -/
def punycodeDecode (text : List Nat) : Option (List Nat) :=
  let pre := (text.reverse.dropWhile (fun c => c ≠ 45))
  let base := if pre = [] then [] else (pre.drop 1).reverse
  let ext := if pre = [] then text else (text.reverse.takeWhile (fun c => c ≠ 45)).reverse
  if base.all (fun c => c < 128) then
    punyLoop (ext.length + 1) base ext 128 0 72 true
  else none

/-- Adjusted RFC 3492 loop state: Python tracks `i` as the insertion
position plus one; `punyLoop` above receives the delta-decoded value
directly, so `i` starts at 0 and `i2 - i` is the delta... the source's
`_idn(subdomain)`: decode the label if it starts with `xn--`. -/
def idnLabel (label : List Nat) : Except UrlError (List Nat) :=
  if label.take 4 = str ("xn--") then
    match punycodeDecode (label.drop 4) with
    | some s2 => .ok s2
    | none => .error .invalidUrl
  else .ok label

/-- Join labels with `'.'`. -/
def joinDots (ls : List (List Nat)) : List Nat :=
  match ls with
  | [] => []
  | h :: t => h ++ (t.map (fun l => 46 :: l)).flatten

/-- Map `_idn` over a list of labels, propagating the first failure. -/
def idnLabels : List (List Nat) → Except UrlError (List (List Nat))
  | [] => .ok []
  | l :: ls =>
    match idnLabel l with
    | .error e => .error e
    | .ok l2 =>
      match idnLabels ls with
      | .error e => .error e
      | .ok ls2 => .ok (l2 :: ls2)

/-! ## `norm_netloc` -/

/-- `_default_port`. -/
def default_port : List (List Nat × List Nat) :=
  [(str ("http"), str ("80")), (str ("itms"), str ("80")), (str ("ws"), str ("80")),
   (str ("https"), str ("443")), (str ("wss"), str ("443")),
   (str ("gopher"), str ("70")), (str ("news"), str ("119")),
   (str ("snews"), str ("563")), (str ("nntp"), str ("119")),
   (str ("snntp"), str ("563")), (str ("ftp"), str ("21")),
   (str ("telnet"), str ("23")), (str ("prospero"), str ("191"))]

/-- `_default_port.get(scheme, None)`. -/
def defaultPort (scheme : List Nat) : Option (List Nat) :=
  (default_port.find? (fun p => p.1 = scheme)).map (fun p => p.2)

/-- Strip one trailing `'.'` (`if host[-1] == '.': host = host[:-1]`). -/
def stripDot (h : List Nat) : List Nat :=
  if h.getLast? = some 46 then h.dropLast else h

/-- A "plain" host for the authority grammar: nonempty, free of `:`,
`[`, `]` and `@`, containing a dot, with no trailing dot.  Such a host
passes every check of `norm_netloc` up to line 224, where `lower(host)`
raises `TypeError`. -/
def PlainHost (h : List Nat) : Prop :=
  h ≠ [] ∧ (∀ c ∈ h, c ≠ 58 ∧ c ≠ 91 ∧ c ≠ 93 ∧ c ≠ 64) ∧
    46 ∈ h ∧ h.getLast? ≠ some 46

instance (h : List Nat) : Decidable (PlainHost h) := by
  rw [PlainHost]
  infer_instance

/-- `host.isdigit()` branch of `norm_netloc`: replace an all-digits host
by its dotted quad, turning `TypeError` into `InvalidUrl`. -/
def digitStep (host0 : List Nat) : Except UrlError (List Nat) :=
  if isAllDigits host0 then
    match int2ip (Int.ofNat (natOfDigits host0)) with
    | .ok s2 => .ok s2
    | .error _ => .error .invalidUrl
  else .ok host0

/-- The dot/bracket validity check of `norm_netloc`
(`'.' not in host and not (host[0] == '[' and host[-1] == ']')`), with the
`IndexError` raised by `host[0]` on an empty host. -/
def dotCheck (host : List Nat) : Except UrlError Unit :=
  if 46 ∈ host then .ok ()
  else
    match host with
    | [] => .error .indexError
    | c :: _ =>
      if c = 91 ∧ host.getLast? = some 93 then .ok ()
      else .error .invalidUrl

/-- The IDN branch of `norm_netloc` (lines 225-227, dead code behind the
`TypeError` of line 224): if the authority contains `xn--`, decode every
dot-separated label and rejoin. -/
def idnStep (authority : List Nat) : Except UrlError (List Nat) :=
  if (str ("xn--")).IsInfix authority then
    match idnLabels (splitOnC 46 authority) with
    | .error e => .error e
    | .ok ls => .ok (joinDots ls)
  else .ok authority

/-- The final reattachment steps of `norm_netloc`: userinfo (verbatim)
and the port when nonempty and different from the scheme's default. -/
def netlocFinish (scheme : List Nat) (userinfo : Option (List Nat))
    (port : Option (List Nat)) (auth1 : List Nat) : List Nat :=
  match port with
  | some p =>
    if p ≠ [] ∧ some p ≠ defaultPort scheme then
      (match userinfo with
       | some ui => ui ++ 64 :: auth1
       | none => auth1) ++ 58 :: p
    else
      match userinfo with
      | some ui => ui ++ 64 :: auth1
      | none => auth1
  | none =>
    match userinfo with
    | some ui => ui ++ 64 :: auth1
    | none => auth1

/-- Line 224 onward: `authority = lower(host)` raises `TypeError`
(`lower` is a string constant), so the IDN decode (lines 225-227) and
the userinfo/port reattachment (lines 229-233) below it are dead code. -/
def netlocIdn (scheme : List Nat) (userinfo : Option (List Nat))
    (port : Option (List Nat)) (host : List Nat) : Except UrlError (List Nat) :=
  match lower_call host with
  | .error e => .error e
  | .ok authority =>
    match idnStep authority with
    | .error e => .error e
    | .ok auth1 => .ok (netlocFinish scheme userinfo port auth1)

/-- The dot/bracket check of `norm_netloc` on the stripped host, followed
by the remaining steps. -/
def netlocChecked (scheme : List Nat) (userinfo : Option (List Nat))
    (port : Option (List Nat)) (host : List Nat) : Except UrlError (List Nat) :=
  match dotCheck host with
  | .error e => .error e
  | .ok _ => netlocIdn scheme userinfo port host

/-- The part of `norm_netloc` after the regex match: digit-host decoding,
trailing-dot strip, dot/bracket check, then the `TypeError` of
`lower(host)` at line 224 (the IDN decode and the userinfo/port
reattachment behind it are dead code). -/
def netlocRest (scheme : List Nat) (userinfo : Option (List Nat)) (host0 : List Nat)
    (port : Option (List Nat)) : Except UrlError (List Nat) :=
  match digitStep host0 with
  | .error e => .error e
  | .ok host1 => netlocChecked scheme userinfo port (stripDot host1)

/-- `norm_netloc(scheme, netloc)`. -/
def norm_netloc (scheme netloc : List Nat) : Except UrlError (List Nat) :=
  if netloc = [] then .ok netloc
  else
    match serverAuthorityMatch netloc with
    | none => .error .invalidUrl
    | some (userinfo, host0, port) => netlocRest scheme userinfo host0 port

/-- The conditions under which `norm_netloc` raises `InvalidUrl`, as a
Boolean predicate on the netloc: nonempty netloc whose authority fails
the regex, all-digits host above the 32-bit range, or a host that, after
trailing-dot stripping, is nonempty, dotless and not bracket-shaped.
Every other nonempty matching netloc either raises `IndexError` (empty
stripped dotless host) or `TypeError` (at `lower(host)`, line 224). -/
def raisesInvalidB (netloc : List Nat) : Bool :=
  decide (netloc ≠ []) &&
    (match serverAuthorityMatch netloc with
     | none => true
     | some (_, host0, _) =>
       if isAllDigits host0 then decide (4294967295 < natOfDigits host0)
       else
         decide (46 ∉ stripDot host0) && decide (stripDot host0 ≠ []) &&
           !(decide ((stripDot host0).head? = some 91 ∧
              (stripDot host0).getLast? = some 93)))

/-! ## `norm_tuple`, `urlparse`/`urlunparse`, `norm` -/

/-- `norm_tuple(scheme, authority, path, parameters, query, fragment)`.
Its first statement, `scheme = lower(scheme)` (line 160), raises
`TypeError` on every input — `lower` is the string constant
`string.ascii_lowercase` — so the whole body below it is dead code. -/
def norm_tuple (scheme authority path params query fragment : List Nat) :
    Except UrlError
      (List Nat × List Nat × List Nat × List Nat × List Nat × List Nat) :=
  match lower_call scheme with
  | .error e => .error e
  | .ok s =>
    if s = [] then .error .invalidUrl
    else
      match norm_netloc s authority with
      | .error e => .error e
      | .ok auth =>
        if auth = [] then .error .invalidUrl
        else
          match norm_path s path with
          | none => .error .decodeError
          | some p =>
            match unquote_params params with
            | none => .error .decodeError
            | some pa =>
              match unquote_qs query with
              | none => .error .decodeError
              | some q =>
                match unquote_fragment fragment with
                | none => .error .decodeError
                | some f => .ok (s, auth, p, pa, q, f)

/-- RFC 3986 scheme characters. -/
def schemeChar (c : Nat) : Bool :=
  decide ((97 ≤ c ∧ c ≤ 122) ∨ (65 ≤ c ∧ c ≤ 90) ∨ (48 ≤ c ∧ c ≤ 57) ∨
    c = 43 ∨ c = 45 ∨ c = 46)

/-- ASCII letter. -/
def isAlphaB (c : Nat) : Bool :=
  decide ((97 ≤ c ∧ c ≤ 122) ∨ (65 ≤ c ∧ c ≤ 90))

/-- Split at the first occurrence of `d`: `(before, after)` with the
separator dropped, or `(s, none)` when `d` does not occur. -/
def splitFirst (d : Nat) (s : List Nat) : List Nat × Option (List Nat) :=
  let pre := s.takeWhile (fun c => c ≠ d)
  if pre.length = s.length then (s, none) else (pre, some (s.drop (pre.length + 1)))

/-- Modelled from the spec: the external URL-splitting primitive (§6), a
standard-compliant URI splitter performing no normalization, matching
`urllib.parse.urlparse`'s decomposition: an RFC 3986 scheme before the
first `:`; a `//`-prefixed netloc running to the next `/`, `?` or `#`;
the fragment after the first `#`; the query after the first `?`; and
parameters after the `;` in the last path segment. -/
def urlparse (url : List Nat) :
    List Nat × List Nat × List Nat × List Nat × List Nat × List Nat :=
  let colon := splitFirst 58 url
  let hasScheme : Bool :=
    match colon.2 with
    | some _ => decide (colon.1 ≠ []) && colon.1.all schemeChar &&
        (match colon.1 with | c :: _ => isAlphaB c | [] => false)
    | none => false
  let scheme := if hasScheme then colon.1 else []
  let rest0 := if hasScheme then (colon.2.getD []) else url
  let hasNetloc := rest0.take 2 = [47, 47]
  let netloc := if hasNetloc then (rest0.drop 2).takeWhile
      (fun c => c ≠ 47 ∧ c ≠ 63 ∧ c ≠ 35) else []
  let rest1 := if hasNetloc then (rest0.drop 2).dropWhile
      (fun c => c ≠ 47 ∧ c ≠ 63 ∧ c ≠ 35) else rest0
  let fr := splitFirst 35 rest1
  let fragment := fr.2.getD []
  let qu := splitFirst 63 fr.1
  let query := qu.2.getD []
  let pathparams := qu.1
  let pp :=
    if 47 ∈ pathparams then
      let afterSlash := (pathparams.reverse.takeWhile (fun c => c ≠ 47)).reverse
      if 59 ∈ afterSlash then
        let pre := afterSlash.takeWhile (fun c => c ≠ 59)
        (pathparams.take (pathparams.length - afterSlash.length + pre.length),
          afterSlash.drop (pre.length + 1))
      else (pathparams, [])
    else
      match splitFirst 59 pathparams with
      | (p, some pa) => (p, pa)
      | (p, none) => (p, [])
  (scheme, netloc, pp.1, pp.2, query, fragment)

/-- Modelled from the spec: the standard generic-URI serialization used
to reassemble the six components (`urllib.parse.urlunparse`):
`scheme://authority/path;parameters?query#fragment`, omitting empty
components per standard rules. -/
def urlunparse (t : List Nat × List Nat × List Nat × List Nat × List Nat × List Nat) :
    List Nat :=
  let (scheme, netloc, path, params, query, fragment) := t
  let u0 := if params ≠ [] then path ++ 59 :: params else path
  let u1 :=
    if netloc ≠ [] ∨ u0.take 2 = [47, 47] then
      47 :: 47 :: netloc ++
        (if u0 ≠ [] ∧ u0.head? ≠ some 47 then 47 :: u0 else u0)
    else u0
  let u2 := if scheme ≠ [] then scheme ++ 58 :: u1 else u1
  let u3 := if query ≠ [] then u2 ++ 63 :: query else u2
  if fragment ≠ [] then u3 ++ 35 :: fragment else u3

/-- `norm(url)`: parse, normalize the tuple, reassemble. -/
def norm (url : List Nat) : Except UrlError (List Nat) :=
  let (s, n, p, pa, q, f) := urlparse url
  match norm_tuple s n p pa q f with
  | .error e => .error e
  | .ok t => .ok (urlunparse t)

/-! ## Helper lemmas: lists, splitting, ASCII -/

/-- Splitting a separator-free string yields a single chunk. -/
theorem splitOnC_not_mem {d : Nat} {s : List Nat} (h : d ∉ s) :
    splitOnC d s = [s] := by
  induction s with
  | nil => rfl
  | cons c rest ih =>
    rw [splitOnC]
    have hcd : c ≠ d := fun he => h (he ▸ List.mem_cons_self c rest)
    have hr : splitOnC d rest = [rest] := ih (fun hm => h (List.mem_cons_of_mem c hm))
    simp [hr, hcd]

/-- Splitting distributes over a separator occurrence. -/
theorem splitOnC_append {d : Nat} {xs t : List Nat} (h : d ∉ xs) :
    splitOnC d (xs ++ d :: t) = xs :: splitOnC d t := by
  induction xs with
  | nil => simp [splitOnC]
  | cons c rest ih =>
    have hcd : c ≠ d := fun he => h (he ▸ List.mem_cons_self c rest)
    have hr := ih (fun hm => h (List.mem_cons_of_mem c hm))
    rw [List.cons_append, splitOnC]
    simp only [hr, hcd, if_false]

/-- `splitOnC` never returns an empty list of chunks. -/
theorem splitOnC_ne_nil (d : Nat) (s : List Nat) : splitOnC d s ≠ [] := by
  induction s with
  | nil => simp [splitOnC]
  | cons c rest ih =>
    rw [splitOnC]
    split
    · simp
    · rcases splitOnC d rest with _ | _ <;> simp_all

/-- Characters of a chunk are characters of the split string. -/
theorem mem_of_mem_splitOnC {d : Nat} {c : Nat} :
    ∀ {s t : List Nat}, t ∈ splitOnC d s → c ∈ t → c ∈ s := by
  intro s
  induction s with
  | nil =>
    intro t ht hc
    simp [splitOnC] at ht
    subst ht
    exact absurd hc (List.not_mem_nil c)
  | cons a rest ih =>
    intro t ht hc
    rw [splitOnC] at ht
    by_cases had : a = d
    · rw [if_pos had] at ht
      rcases List.mem_cons.mp ht with ht | ht
      · subst ht; exact absurd hc (List.not_mem_nil c)
      · exact List.mem_cons_of_mem a (ih ht hc)
    · rw [if_neg had] at ht
      rcases hr : splitOnC d rest with _ | ⟨h2, t2⟩
      · exact absurd hr (splitOnC_ne_nil d rest)
      · rw [hr] at ht
        have ht2 : t ∈ (a :: h2) :: t2 := ht
        rcases List.mem_cons.mp ht2 with ht3 | ht3
        · subst ht3
          rcases List.mem_cons.mp hc with hc2 | hc2
          · exact hc2 ▸ List.mem_cons_self a rest
          · exact List.mem_cons_of_mem a (ih (hr ▸ List.mem_cons_self h2 t2) hc2)
        · exact List.mem_cons_of_mem a (ih (hr ▸ List.mem_cons_of_mem h2 ht3) hc)

/-- `takeWhile` over an append whose left part satisfies the predicate. -/
theorem takeWhile_append_all {p : Nat → Bool} {xs rest : List Nat}
    (h : ∀ c ∈ xs, p c = true) :
    (xs ++ rest).takeWhile p = xs ++ rest.takeWhile p := by
  induction xs with
  | nil => simp
  | cons c t ih =>
    have hc : p c = true := h c (List.mem_cons_self c t)
    simp only [List.cons_append, List.takeWhile_cons, hc, if_true]
    rw [ih (fun c2 hm => h c2 (List.mem_cons_of_mem c hm))]

/-- `takeWhile` of a fully satisfying string is the string itself. -/
theorem takeWhile_eq_self {p : Nat → Bool} {s : List Nat}
    (h : ∀ c ∈ s, p c = true) : s.takeWhile p = s := by
  have h2 := @takeWhile_append_all p s [] h
  simpa using h2

/-- ASCII strings UTF-8-encode to themselves. -/
theorem utf8Encode_ascii {s : List Nat} (h : ∀ c ∈ s, c < 128) :
    utf8Encode s = s := by
  induction s with
  | nil => rfl
  | cons c rest ih =>
    have hc : c < 128 := h c (List.mem_cons_self c rest)
    have hr := ih (fun c2 hm => h c2 (List.mem_cons_of_mem c hm))
    simp only [utf8Encode, List.map_cons, List.flatten_cons] at hr ⊢
    rw [utf8EncodeChar, if_pos hc]
    simp [hr]

/-- One ASCII byte decodes to itself. -/
theorem utf8DecodeOne_ascii {c : Nat} (rest : List Nat) (hc : c < 128) :
    utf8DecodeOne (c :: rest) = some (c, rest) := by
  rw [utf8DecodeOne.eq_def]
  simp only [if_pos hc]

/-- The decoding loop is the identity on ASCII byte strings, for any
sufficient fuel. -/
theorem utf8DecodeGo_ascii :
    ∀ (fuel : Nat) (s : List Nat), (∀ c ∈ s, c < 128) → s.length ≤ fuel →
      utf8DecodeGo fuel s = some s := by
  intro fuel
  induction fuel with
  | zero =>
    intro s h hl
    rcases s with _ | ⟨c, rest⟩
    · rfl
    · simp at hl
  | succ f ih =>
    intro s h hl
    rcases s with _ | ⟨c, rest⟩
    · rfl
    · rw [utf8DecodeGo, utf8DecodeOne_ascii rest (h c (List.mem_cons_self c rest))]
      show Option.map (fun t => c :: t) (utf8DecodeGo f rest) = some (c :: rest)
      rw [ih rest (fun c2 hm => h c2 (List.mem_cons_of_mem c hm))
        (by simpa using Nat.le_of_succ_le_succ hl)]
      rfl

/-- ASCII strings UTF-8-decode to themselves. -/
theorem utf8Decode_ascii {s : List Nat} (h : ∀ c ∈ s, c < 128) :
    utf8Decode s = some s :=
  utf8DecodeGo_ascii s.length s h le_rfl

/-- `unquote_safe` is the identity on ASCII, percent-free strings. -/
theorem unquote_safe_ascii_percent_free {s u : List Nat}
    (hp : 37 ∉ s) (ha : ∀ c ∈ s, c < 128) :
    unquote_safe s u = some s := by
  rw [unquote_safe, utf8Encode_ascii ha, unquoteRaw, splitOnC_not_mem hp]
  simp only [List.map_nil, List.flatten_nil, List.append_nil]
  exact utf8Decode_ascii ha

/-! ## Helper lemmas: the `_hextochr` lookup -/

/-- `lowHexDigit` produces lowercase-hex characters and is inverted by
`hexVal`. -/
theorem lowHexDigit_spec : ∀ v : Nat, v < 16 →
    isLowHex (lowHexDigit v) = true ∧ hexVal (lowHexDigit v) = v := by decide

/-- `upHexDigit` produces uppercase-hex characters and is inverted by
`hexVal`. -/
theorem upHexDigit_spec : ∀ v : Nat, v < 16 →
    isUpHex (upHexDigit v) = true ∧ hexVal (upHexDigit v) = v := by decide

/-- `hexVal` inverts back onto `lowHexDigit` for lowercase-hex characters. -/
theorem hexVal_lowHex {a : Nat} (h : isLowHex a = true) :
    hexVal a ≤ 15 ∧ lowHexDigit (hexVal a) = a := by
  rw [isLowHex, decide_eq_true_eq] at h
  rw [hexVal, lowHexDigit]
  rcases h with h | h
  · rw [if_pos (by omega)]
    constructor
    · omega
    · rw [if_pos (by omega)]; omega
  · rw [if_neg (by omega), if_neg (by omega)]
    constructor
    · omega
    · rw [if_neg (by omega)]; omega

/-- `hexVal` inverts back onto `upHexDigit` for uppercase-hex characters. -/
theorem hexVal_upHex {a : Nat} (h : isUpHex a = true) :
    hexVal a ≤ 15 ∧ upHexDigit (hexVal a) = a := by
  rw [isUpHex, decide_eq_true_eq] at h
  rw [hexVal, upHexDigit]
  rcases h with h | h
  · rw [if_pos (by omega)]
    constructor
    · omega
    · rw [if_pos (by omega)]; omega
  · rw [if_neg (by omega), if_pos (by omega)]
    constructor
    · omega
    · rw [if_neg (by omega)]; omega

/-- Membership in the `_hextochr` association list. -/
theorem mem_hextochr {x : List Nat × Nat} :
    x ∈ hextochr ↔ ∃ i, i < 256 ∧ (x = (hexLower i, i) ∨ x = (hexUpper i, i)) := by
  rw [hextochr, List.mem_append, List.mem_map, List.mem_map]
  constructor
  · rintro (⟨i, hi, he⟩ | ⟨i, hi, he⟩) <;>
      exact ⟨i, by simpa using List.mem_range.mp hi, by simp [he.symm]⟩
  · rintro ⟨i, hi, he | he⟩
    · exact Or.inl ⟨i, List.mem_range.mpr hi, he.symm⟩
    · exact Or.inr ⟨i, List.mem_range.mpr hi, he.symm⟩

/-- `find?` returns the element when it is the unique satisfier. -/
theorem find?_eq_of_unique {α : Type} {p : α → Bool} {l : List α} {a : α}
    (hm : a ∈ l) (hp : p a = true) (hu : ∀ b ∈ l, p b = true → b = a) :
    l.find? p = some a := by
  induction l with
  | nil => exact absurd hm (List.not_mem_nil a)
  | cons x t ih =>
    rw [List.find?]
    by_cases hx : p x = true
    · rw [hx]
      exact congrArg some (hu x (List.mem_cons_self x t) hx)
    · rw [Bool.not_eq_true] at hx
      rw [hx]
      rcases List.mem_cons.mp hm with he | hmt
      · exact absurd (he ▸ hp) (by simp [hx])
      · exact ih hmt (fun b hb hpb => hu b (List.mem_cons_of_mem x hb) hpb)

/-- Any `_hextochr` entry whose key is `[a, b]` is exactly
`([a, b], 16 * hexVal a + hexVal b)`, and such keys force `validHexPair`. -/
theorem hextochr_entry {a b : Nat} {x : List Nat × Nat} (hx : x ∈ hextochr)
    (hk : x.1 = [a, b]) :
    validHexPair a b = true ∧ x = ([a, b], 16 * hexVal a + hexVal b) := by
  rcases mem_hextochr.mp hx with ⟨i, hi, he | he⟩ <;> subst he
  · simp only [hexLower, Prod.mk.injEq] at hk ⊢
    obtain ⟨ha, hb⟩ : lowHexDigit (i / 16) = a ∧ lowHexDigit (i % 16) = b := by
      constructor <;> simp_all
    have h1 := lowHexDigit_spec (i / 16) (by omega)
    have h2 := lowHexDigit_spec (i % 16) (Nat.mod_lt i (by omega))
    rw [ha] at h1
    rw [hb] at h2
    constructor
    · rw [validHexPair, h1.1, h2.1]
      simp
    · constructor
      · exact hk
      · rw [h1.2, h2.2]
        omega
  · simp only [hexUpper, Prod.mk.injEq] at hk ⊢
    obtain ⟨ha, hb⟩ : upHexDigit (i / 16) = a ∧ upHexDigit (i % 16) = b := by
      constructor <;> simp_all
    have h1 := upHexDigit_spec (i / 16) (by omega)
    have h2 := upHexDigit_spec (i % 16) (Nat.mod_lt i (by omega))
    rw [ha] at h1
    rw [hb] at h2
    constructor
    · rw [validHexPair, h1.1, h2.1]
      simp
    · constructor
      · exact hk
      · rw [h1.2, h2.2]
        omega

/-- `_hextochr` lookup succeeds exactly on valid pairs, with the byte
value of the two hex digits. -/
theorem lookupHex_pair (a b : Nat) :
    lookupHex [a, b] =
      (if validHexPair a b = true then some (16 * hexVal a + hexVal b) else none) := by
  by_cases hv : validHexPair a b = true
  · rw [if_pos hv, lookupHex]
    have hmem : ([a, b], 16 * hexVal a + hexVal b) ∈ hextochr := by
      rw [validHexPair, Bool.or_eq_true] at hv
      rw [mem_hextochr]
      refine ⟨16 * hexVal a + hexVal b, ?_, ?_⟩
      · rcases hv with h | h
        · rw [Bool.and_eq_true] at h
          have hva := hexVal_lowHex h.1
          have hvb := hexVal_lowHex h.2
          omega
        · rw [Bool.and_eq_true] at h
          have hva := hexVal_upHex h.1
          have hvb := hexVal_upHex h.2
          omega
      · rcases hv with h | h
        · rw [Bool.and_eq_true] at h
          have hva := hexVal_lowHex h.1
          have hvb := hexVal_lowHex h.2
          refine Or.inl ?_
          have hdiv : (16 * hexVal a + hexVal b) / 16 = hexVal a := by omega
          have hmod : (16 * hexVal a + hexVal b) % 16 = hexVal b := by omega
          rw [hexLower, hdiv, hmod, hva.2, hvb.2]
        · rw [Bool.and_eq_true] at h
          have hva := hexVal_upHex h.1
          have hvb := hexVal_upHex h.2
          refine Or.inr ?_
          have hdiv : (16 * hexVal a + hexVal b) / 16 = hexVal a := by omega
          have hmod : (16 * hexVal a + hexVal b) % 16 = hexVal b := by omega
          rw [hexUpper, hdiv, hmod, hva.2, hvb.2]
    have hfind :
        hextochr.find? (fun p => p.1 = [a, b]) =
          some ([a, b], 16 * hexVal a + hexVal b) := by
      refine find?_eq_of_unique hmem (by simp) ?_
      intro x hx hpx
      rw [decide_eq_true_eq] at hpx
      exact (hextochr_entry hx hpx).2
    rw [hfind]
    rfl
  · rw [if_neg hv, lookupHex]
    have hnone : hextochr.find? (fun p => p.1 = [a, b]) = none := by
      rw [List.find?_eq_none]
      intro x hx hpx
      rw [decide_eq_true_eq] at hpx
      exact hv (hextochr_entry hx hpx).1
    rw [hnone]
    rfl

/-- Keys of `_hextochr` have length 2, so short keys miss. -/
theorem lookupHex_short {k : List Nat} (h : k.length ≠ 2) : lookupHex k = none := by
  rw [lookupHex]
  have hn : hextochr.find? (fun p => p.1 = k) = none := by
    rw [List.find?_eq_none]
    intro x hx hpx
    rw [decide_eq_true_eq] at hpx
    rcases mem_hextochr.mp hx with ⟨i, _, he | he⟩ <;> subst he <;>
      exact h (by rw [← hpx]; rfl)
  rw [hn]
  rfl

/-- The `unquoteRaw` homomorphism over a single escape occurrence. -/
theorem unquoteRaw_single {xs item u : List Nat} (hxs : 37 ∉ xs) (hit : 37 ∉ item) :
    unquoteRaw (xs ++ 37 :: item) u = xs ++ processChunk u item := by
  rw [unquoteRaw, splitOnC_append hxs, splitOnC_not_mem hit]
  simp

/-- `upperHexChar` never increases a character code. -/
theorem upperHexChar_le (c : Nat) : upperHexChar c ≤ c := by
  rw [upperHexChar]
  split <;> omega

/-- A processed chunk of ASCII-safe input stays ASCII. -/
theorem processChunk_ascii {u t : List Nat} (ht : ∀ c ∈ t, c < 128)
    (hsafe : chunkSafeB u t = true) : ∀ c ∈ processChunk u t, c < 128 := by
  intro c hc
  rcases t with _ | ⟨a, _ | ⟨b, rest⟩⟩
  · rw [processChunk, List.take_nil, lookupHex_short (by simp)] at hc
    simp at hc
    omega
  · rw [processChunk] at hc
    rw [show ([a] : List Nat).take 2 = [a] from rfl,
      lookupHex_short (by simp)] at hc
    rcases List.mem_cons.mp hc with he | he
    · omega
    · exact ht c he
  · rw [processChunk] at hc
    rw [show (a :: b :: rest).take 2 = [a, b] from rfl, lookupHex_pair a b] at hc
    have ha : a < 128 := ht a (List.mem_cons_self a (b :: rest))
    have hb : b < 128 := ht b (List.mem_cons_of_mem a (List.mem_cons_self b rest))
    have hrest : ∀ c2 ∈ rest, c2 < 128 := fun c2 hm =>
      ht c2 (List.mem_cons_of_mem a (List.mem_cons_of_mem b hm))
    by_cases hv : validHexPair a b = true
    · rw [if_pos hv] at hc
      have hc2 : c ∈
          (if 16 * hexVal a + hexVal b ∈ u ∨ 16 * hexVal a + hexVal b < 20 then
            37 :: (List.map upperHexChar [a, b] ++ List.drop 2 (a :: b :: rest))
          else (16 * hexVal a + hexVal b) :: List.drop 2 (a :: b :: rest)) := hc
      by_cases hk : 16 * hexVal a + hexVal b ∈ u ∨ 16 * hexVal a + hexVal b < 20
      · rw [if_pos hk] at hc2
        rcases List.mem_cons.mp hc2 with he | he
        · omega
        rw [show (a :: b :: rest).drop 2 = rest from rfl] at he
        rcases List.mem_append.mp he with he2 | he2
        · rcases List.mem_map.mp he2 with ⟨c0, hc0, he3⟩
          have hle := upperHexChar_le c0
          rcases List.mem_cons.mp hc0 with h4 | h4
          · omega
          · rcases List.mem_cons.mp h4 with h5 | h5
            · omega
            · exact absurd h5 (List.not_mem_nil c0)
        · exact hrest c he2
      · rw [if_neg hk] at hc2
        rcases List.mem_cons.mp hc2 with he | he
        · rw [chunkSafeB] at hsafe
          rw [hv] at hsafe
          simp only [Bool.not_true, Bool.false_or, Bool.or_eq_true,
            decide_eq_true_eq] at hsafe
          rcases hsafe with (h1 | h1) | h1
          · omega
          · exact absurd (Or.inl h1) hk
          · exact absurd (Or.inr h1) hk
        · rw [show (a :: b :: rest).drop 2 = rest from rfl] at he
          exact hrest c he
    · rw [Bool.not_eq_true] at hv
      rw [hv] at hc
      have hc2 : c ∈ (37 : Nat) :: a :: b :: rest := by
        simpa using hc
      rcases List.mem_cons.mp hc2 with he | he
      · omega
      · exact ht c he

/-- The byte-level unquote keeps ASCII-safe input ASCII. -/
theorem unquoteRaw_ascii {s u : List Nat} (ha : ∀ c ∈ s, c < 128)
    (hch : ∀ t ∈ (splitOnC 37 s).tail, chunkSafeB u t = true) :
    ∀ c ∈ unquoteRaw s u, c < 128 := by
  intro c hc
  rw [unquoteRaw] at hc
  rcases hs : splitOnC 37 s with _ | ⟨h, t⟩
  · exact absurd hs (splitOnC_ne_nil 37 s)
  · rw [hs] at hc
    rcases List.mem_append.mp hc with he | he
    · exact ha c (mem_of_mem_splitOnC (hs ▸ List.mem_cons_self h t) he)
    · rcases List.mem_flatten.mp he with ⟨l, hl, hcl⟩
      rcases List.mem_map.mp hl with ⟨t0, ht0, he2⟩
      subst he2
      refine processChunk_ascii ?_ ?_ c hcl
      · intro c2 hc2
        exact ha c2 (mem_of_mem_splitOnC (hs ▸ List.mem_cons_of_mem h ht0) hc2)
      · exact hch t0 (by rw [hs]; exact ht0)

/-- `unquote_safe` succeeds on ASCII input whose escapes are ASCII-safe. -/
theorem unquote_safe_isSome {s u : List Nat} (ha : ∀ c ∈ s, c < 128)
    (hch : ∀ t ∈ (splitOnC 37 s).tail, chunkSafeB u t = true) :
    unquote_safe s u = some (unquoteRaw s u) := by
  rw [unquote_safe, utf8Encode_ascii ha]
  exact utf8Decode_ascii (unquoteRaw_ascii ha hch)

/-- Characters of a substituted string come from the original or are `/`. -/
theorem subst1_chars {s t : List Nat} (h : subst1 s = some t) :
    ∀ c ∈ t, c ∈ s ∨ c = 47 := by
  intro c hc
  rw [subst1] at h
  rcases hf : findMatch s with _ | ⟨i, k⟩
  · rw [hf] at h
    exact absurd h (by simp)
  · rw [hf] at h
    have ht : t = s.take i ++ 47 :: s.drop (i + k) := by
      simpa using h.symm
    subst ht
    rcases List.mem_append.mp hc with he | he
    · exact Or.inl (List.take_subset i s he)
    · rcases List.mem_cons.mp he with he2 | he2
      · exact Or.inr he2
      · exact Or.inl (List.drop_subset (i + k) s he2)

/-- Characters of the collapsing loop come from the original or are `/`. -/
theorem collapseIter_chars :
    ∀ (fuel : Nat) (s : List Nat) (c : Nat), c ∈ collapseIter fuel s →
      c ∈ s ∨ c = 47 := by
  intro fuel
  induction fuel with
  | zero => intro s c hc; exact Or.inl hc
  | succ f ih =>
    intro s c hc
    rw [collapseIter] at hc
    rcases hsub : subst1 s with _ | t
    · rw [hsub] at hc
      exact Or.inl hc
    · rw [hsub] at hc
      rcases ih t c hc with h2 | h2
      · exact subst1_chars hsub c h2
      · exact Or.inr h2

/-- Characters of the collapsed path come from the original or are `/`. -/
theorem collapseFix_chars {s : List Nat} {c : Nat} (hc : c ∈ collapseFix s) :
    c ∈ s ∨ c = 47 :=
  collapseIter_chars (s.length + 1) s c hc

/-! ## Helper lemmas: bounds for the collapse substitution -/

/-- Bounds for alternative 1: the match is at least 2 long and fits in `s`. -/
theorem alt1_bounds {s : List Nat} {k : Nat} (h : alt1 s = some k) :
    2 ≤ k ∧ k ≤ s.length := by
  unfold alt1 at h
  split at h
  · exact absurd h (by simp)
  · split at h
    next rest hd =>
      have htw : (s.takeWhile (fun c => c ≠ 47)).length ≤ s.length :=
        (List.takeWhile_prefix _).length_le
      have h2 := congrArg List.length hd
      simp only [List.length_drop, List.length_cons] at h2
      simp only [Option.some.injEq] at h
      subst h
      by_cases hh : rest.head? = some 47
      · have hne : rest ≠ [] := by intro he; rw [he] at hh; simp at hh
        have hpos : 1 ≤ rest.length := List.length_pos.mpr hne
        simp only [hh, if_pos]
        omega
      · simp only [hh, if_neg, if_false]
        omega
    next => simp at h

/-- Bounds for alternative 2. -/
theorem alt2_bounds {s : List Nat} {k : Nat} (h : alt2 s = some k) :
    2 ≤ k ∧ k ≤ s.length := by
  unfold alt2 at h
  split at h
  next => simp at h; simp only [List.length_cons]; omega
  next => simp at h

/-- Bounds for alternative 3. -/
theorem alt3_bounds {s : List Nat} {k : Nat} (h : alt3 s = some k) :
    2 ≤ k ∧ k ≤ s.length := by
  unfold alt3 at h
  split at h
  next => simp at h; simp only [List.length_cons]; omega
  next => simp at h

/-- Bounds for alternative 4. -/
theorem alt4_bounds {s : List Nat} {k : Nat} (h : alt4 s = some k) :
    2 ≤ k ∧ k ≤ s.length := by
  unfold alt4 at h
  split at h
  next => split at h <;> simp at h; simp only [List.length_cons]; omega
  next => simp at h

/-- Bounds for alternative 5. -/
theorem alt5_bounds {s : List Nat} {k : Nat} (h : alt5 s = some k) :
    2 ≤ k ∧ k ≤ s.length := by
  unfold alt5 at h
  split at h
  next => split at h <;> simp at h; simp only [List.length_cons]; omega
  next => simp at h

/-- Every `_collapse` match has length at least 2 and fits in the string. -/
theorem matchAt_bounds {s : List Nat} {k : Nat} (h : matchAt s = some k) :
    2 ≤ k ∧ k ≤ s.length := by
  unfold matchAt at h
  rcases h1 : alt1 s with _ | k1 <;> rw [h1] at h
  · rcases h2 : alt2 s with _ | k2 <;> rw [h2] at h
    · rcases h3 : alt3 s with _ | k3 <;> rw [h3] at h
      · rcases h4 : alt4 s with _ | k4 <;> rw [h4] at h
        · exact alt5_bounds h
        · obtain rfl : k4 = k := by simpa using h
          exact alt4_bounds h4
      · obtain rfl : k3 = k := by simpa using h
        exact alt3_bounds h3
    · obtain rfl : k2 = k := by simpa using h
      exact alt2_bounds h2
  · obtain rfl : k1 = k := by simpa using h
    exact alt1_bounds h1

/-- A leftmost match fits inside the string and has length at least 2. -/
theorem findMatch_bounds {s : List Nat} {i k : Nat} (h : findMatch s = some (i, k)) :
    2 ≤ k ∧ i + k ≤ s.length := by
  induction s generalizing i k with
  | nil => simp [findMatch] at h
  | cons c rest ih =>
    rw [findMatch] at h
    rcases hm : matchAt (c :: rest) with _ | k0
    · rw [hm] at h
      rcases hf : findMatch rest with _ | ⟨i2, k2⟩
      · simp [hf] at h
      · rw [hf] at h
        simp at h
        obtain ⟨hi, hk⟩ := h
        obtain ⟨h2, h3⟩ := ih hf
        subst hi; subst hk
        simp
        omega
    · rw [hm] at h
      simp at h
      obtain ⟨hi, hk⟩ := h
      subst hi; subst hk
      simpa using matchAt_bounds hm

/-- A substitution strictly shrinks the string (each match of length `≥ 2`
is replaced by the single character `/`). -/
theorem subst1_length {s t : List Nat} (h : subst1 s = some t) :
    t.length < s.length := by
  unfold subst1 at h
  rcases hf : findMatch s with _ | ⟨i, k⟩
  · simp [hf] at h
  · rw [hf] at h
    simp at h
    obtain ⟨h2, h3⟩ := findMatch_bounds hf
    subst h
    simp [List.length_take, List.length_drop]
    omega


/-! ## Helper lemmas: the collapsing fixed point -/

/-- With fuel exceeding the length, the collapsing loop reaches a string
with no remaining match. -/
theorem collapseIter_fixed :
    ∀ (fuel : Nat) (s : List Nat), s.length < fuel →
      subst1 (collapseIter fuel s) = none := by
  intro fuel
  induction fuel with
  | zero => intro s h; exact absurd h (Nat.not_lt_zero _)
  | succ f ih =>
    intro s h
    rw [collapseIter]
    rcases hsub : subst1 s with _ | t
    · exact hsub
    · exact ih t (by have := subst1_length hsub; omega)

/-- The collapsed path admits no further substitution. -/
theorem collapseFix_fixed (s : List Nat) : subst1 (collapseFix s) = none :=
  collapseIter_fixed (s.length + 1) s (by omega)

/-- A string with no match is its own collapse. -/
theorem collapseFix_of_fixed {s : List Nat} (h : subst1 s = none) :
    collapseFix s = s := by
  rw [collapseFix, collapseIter, h]

/-- Collapsing is idempotent. -/
theorem collapseFix_idem (s : List Nat) :
    collapseFix (collapseFix s) = collapseFix s :=
  collapseFix_of_fixed (collapseFix_fixed s)

/-! ## The claims -/

/-- **C7**: for hierarchical schemes (`http`, `https`, `ws`, `wss`,
`itms`, `news`, `snews`, `nntp`, `snntp`, `ftp`, `file`, and the empty
scheme), `norm_path` collapses the path by repeated single leftmost
substitutions of the `_collapse` rules until a fixed point (second
conjunct: the result admits no further substitution), then unquotes with
the path unsafe set and returns `/` for an empty result; for every other
scheme the path is unquoted but not collapsed. -/
theorem claim_c7_norm_path (scheme path : List Nat) :
    (scheme ∈ relative_schemes →
      norm_path scheme path =
        (match unquote_path (collapseFix path) with
         | none => none
         | some q => some (if q = [] then [47] else q))) ∧
    subst1 (collapseFix path) = none ∧
    (scheme ∉ relative_schemes →
      norm_path scheme path =
        (match unquote_path path with
         | none => none
         | some q => some (if q = [] then [47] else q))) := by
  refine ⟨fun h => ?_, collapseFix_fixed path, fun h => ?_⟩
  · simp only [norm_path, if_pos h]
  · simp only [norm_path, if_neg h]

set_option maxRecDepth 100000 in
/-- Witness for C7 at concrete inputs: a hierarchical scheme collapses
`/a/../b` to `/b`; a non-hierarchical scheme leaves `/a/../b%2e`
uncollapsed (only unquoted). -/
theorem claim_c7_norm_path_witness :
    norm_path (str ("http")) (str ("/a/../b")) = some (str ("/b")) ∧
    norm_path (str ("mailto")) (str ("/a/../b%2e")) = some (str ("/a/../b.")) := by
  constructor
  · rw [(claim_c7_norm_path (str ("http")) (str ("/a/../b"))).1 (by decide)]
    decide
  · rw [(claim_c7_norm_path (str ("mailto")) (str ("/a/../b%2e"))).2.2 (by decide)]
    decide

set_option maxRecDepth 100000 in
/-- **C2** (counterexample): the claim preserves escapes below 0x20 and
decodes any case-insensitive hex pair.  The code instead decodes `%1e`
(0x1E < 0x20, but not `< 20` decimal), and leaves the mixed-case pair
`%aB` verbatim instead of decoding it to byte 0xAB. -/
theorem claim_c2_counterexample :
    unquote_safe (str ("%1e")) path_unsafe_list = some [30] ∧
    [30] ≠ str ("%1E") ∧
    unquote_safe (str ("%aB")) path_unsafe_list = some (str ("%aB")) ∧
    str ("%aB") ≠ [171] := by
  exact ⟨by decide, by decide, by decide, by decide⟩

/-- **C2** (amended): on the byte string, every `%` starts a chunk; a
chunk beginning with a two-character key of `_hextochr` — both characters
lowercase hex digits or both uppercase hex digits (decimal digits count
as either) — decodes to its byte, except that bytes in the unsafe set or
with value `< 20` (decimal) are preserved as percent escapes re-emitted
with uppercase hex; any other chunk (including mixed-case pairs such as
`aB` and short chunks) is left verbatim with the literal `%` re-inserted. -/
theorem claim_c2_amended (xs item u : List Nat) (hxs : 37 ∉ xs) (hit : 37 ∉ item) :
    unquoteRaw (xs ++ 37 :: item) u = xs ++ processChunk u item ∧
    (∀ a b rest, item = a :: b :: rest →
      (validHexPair a b = true →
        ((16 * hexVal a + hexVal b ∈ u ∨ 16 * hexVal a + hexVal b < 20) →
          processChunk u item = 37 :: upperHexChar a :: upperHexChar b :: rest) ∧
        (¬(16 * hexVal a + hexVal b ∈ u ∨ 16 * hexVal a + hexVal b < 20) →
          processChunk u item = (16 * hexVal a + hexVal b) :: rest)) ∧
      (validHexPair a b = false → processChunk u item = 37 :: item)) ∧
    (item.length < 2 → processChunk u item = 37 :: item) := by
  refine ⟨unquoteRaw_single hxs hit, ?_, ?_⟩
  · intro a b rest he
    subst he
    constructor
    · intro hv
      rw [processChunk, show (a :: b :: rest).take 2 = [a, b] from rfl,
        lookupHex_pair a b, if_pos hv]
      constructor
      · intro hk
        show (if 16 * hexVal a + hexVal b ∈ u ∨ 16 * hexVal a + hexVal b < 20 then
            37 :: (List.map upperHexChar [a, b] ++ List.drop 2 (a :: b :: rest))
          else (16 * hexVal a + hexVal b) :: List.drop 2 (a :: b :: rest)) = _
        rw [if_pos hk]
        rfl
      · intro hk
        show (if 16 * hexVal a + hexVal b ∈ u ∨ 16 * hexVal a + hexVal b < 20 then
            37 :: (List.map upperHexChar [a, b] ++ List.drop 2 (a :: b :: rest))
          else (16 * hexVal a + hexVal b) :: List.drop 2 (a :: b :: rest)) = _
        rw [if_neg hk]
        rfl
    · intro hv
      rw [processChunk, show (a :: b :: rest).take 2 = [a, b] from rfl,
        lookupHex_pair a b, hv]
      rfl
  · intro hlen
    rcases item with _ | ⟨a, _ | ⟨b, rest⟩⟩
    · rw [processChunk, List.take_nil, lookupHex_short (by simp)]
    · rw [processChunk, show ([a] : List Nat).take 2 = [a] from rfl,
        lookupHex_short (by simp)]
    · simp only [List.length_cons] at hlen
      omega

set_option maxRecDepth 100000 in
/-- Witness for C2 (amended) at `xs = "a"`, `item = "3dz"`,
`u = path_unsafe_list`: the escape `%3d` decodes to `=` (61). -/
theorem claim_c2_amended_witness :
    unquoteRaw (str ("a%3dz")) path_unsafe_list =
      str ("a") ++ processChunk path_unsafe_list (str ("3dz")) ∧
    processChunk path_unsafe_list (str ("3dz")) = 61 :: str ("z") := by
  have h := claim_c2_amended (str ("a")) (str ("3dz")) path_unsafe_list
    (by decide) (by decide)
  constructor
  · exact (by decide : str ("a%3dz") = str ("a") ++ 37 :: str ("3dz")) ▸ h.1
  · have h2 := ((h.2.1 51 100 (str ("z")) (by decide)).1 (by decide)).2 (by decide)
    rw [show (16 * hexVal 51 + hexVal 100 : Nat) = 61 from by decide] at h2
    exact h2

set_option maxRecDepth 100000 in
/-- **C3** (counterexample): the claim says `unquote_safe` and
`norm_path` never raise; on `%ff` the decoded byte string `\xff` is not
valid UTF-8, and the final `_unicode` decode raises `UnicodeDecodeError`
(modelled as `none`) in both functions. -/
theorem claim_c3_counterexample :
    unquote_safe (str ("%ff")) path_unsafe_list = none ∧
    norm_path (str ("http")) (str ("%ff")) = none := ⟨by decide, by decide⟩

/-- **C3** (amended): `unquote_safe` and `norm_path` never raise
`InvalidUrl`; the only failure is the final UTF-8 decode.  In particular
both succeed on every ASCII input whose valid escapes either decode below
0x80 or are preserved (unsafe set or `< 20`): the percent-escape
rewriting itself and the path collapsing never fail. -/
theorem claim_c3_amended :
    (∀ s u : List Nat, (∀ c ∈ s, c < 128) →
      (∀ t ∈ (splitOnC 37 s).tail, chunkSafeB u t = true) →
      unquote_safe s u = some (unquoteRaw s u)) ∧
    (∀ scheme path : List Nat, (∀ c ∈ path, c < 128) →
      (∀ t ∈ (splitOnC 37
          (if scheme ∈ relative_schemes then collapseFix path else path)).tail,
        chunkSafeB path_unsafe_list t = true) →
      (norm_path scheme path).isSome = true) := by
  constructor
  · exact fun s u ha hch => unquote_safe_isSome ha hch
  · intro scheme path ha hch
    have hpa : ∀ c ∈ (if scheme ∈ relative_schemes then collapseFix path else path),
        c < 128 := by
      split
      · intro c hc
        rcases collapseFix_chars hc with h2 | h2
        · exact ha c h2
        · omega
      · exact ha
    have hq := unquote_safe_isSome (u := path_unsafe_list) hpa hch
    simp only [norm_path, unquote_path]
    rw [hq]
    rfl

set_option maxRecDepth 100000 in
/-- Witness for C3 (amended) at concrete inputs. -/
theorem claim_c3_amended_witness :
    unquote_safe (str ("a%2fb%zz")) path_unsafe_list =
      some (unquoteRaw (str ("a%2fb%zz")) path_unsafe_list) ∧
    (norm_path (str ("http")) (str ("/x%41/../y"))).isSome = true := by
  constructor
  · exact claim_c3_amended.1 _ _ (by decide) (by decide)
  · exact claim_c3_amended.2 (str ("http")) (str ("/x%41/../y")) (by decide) (by decide)

/-- **C4**: `int2ip` produces the dotted quad of the big-endian byte
decomposition for every integer in `[0, 4294967295]` and fails with the
out-of-range `TypeError` outside that range. -/
theorem claim_c4_int2ip (n : Int) :
    (0 ≤ n → n ≤ 4294967295 →
      int2ip n = .ok (natRepr (n.toNat / 16777216) ++ 46 ::
        natRepr (n.toNat / 65536 % 256) ++ 46 :: natRepr (n.toNat / 256 % 256) ++
        46 :: natRepr (n.toNat % 256))) ∧
    ((n < 0 ∨ 4294967295 < n) → int2ip n = .error .typeError) := by
  constructor
  · intro h0 h1
    rw [int2ip, if_neg (by rw [MAX_IP]; omega)]
    have e1 : n.toNat >>> 24 = n.toNat / 16777216 := by
      rw [Nat.shiftRight_eq_div_pow]
    have e2 : n.toNat >>> 16 &&& 255 = n.toNat / 65536 % 256 := by
      rw [Nat.shiftRight_eq_div_pow]
      have := Nat.and_pow_two_sub_one_eq_mod (n.toNat / 2 ^ 16) 8
      norm_num at this ⊢
      exact this
    have e3 : n.toNat >>> 8 &&& 255 = n.toNat / 256 % 256 := by
      rw [Nat.shiftRight_eq_div_pow]
      have := Nat.and_pow_two_sub_one_eq_mod (n.toNat / 2 ^ 8) 8
      norm_num at this ⊢
      exact this
    have e4 : n.toNat &&& 255 = n.toNat % 256 := by
      have := Nat.and_pow_two_sub_one_eq_mod n.toNat 8
      norm_num at this ⊢
      exact this
    rw [e1, e2, e3, e4]
  · intro h
    rw [int2ip, if_pos (by rw [MAX_IP]; omega)]

set_option maxRecDepth 100000 in
/-- Witness for C4: `int2ip(3221225985) = "192.0.2.1"` (the spec's
example) and `int2ip(4294967296)` is out of range. -/
theorem claim_c4_int2ip_witness :
    int2ip 3221225985 = .ok (str ("192.0.2.1")) ∧
    int2ip 4294967296 = .error .typeError ∧ int2ip (-1) = .error .typeError := by
  refine ⟨?_, ?_, ?_⟩
  · rw [(claim_c4_int2ip 3221225985).1 (by norm_num) (by norm_num)]
    exact congrArg Except.ok (by decide)
  · exact (claim_c4_int2ip 4294967296).2 (by norm_num)
  · exact (claim_c4_int2ip (-1)).2 (by norm_num)

/-! ## Helper lemmas: the authority matcher on well-formed netlocs -/

/-- The regex on `host:port`: host is the colon-free run, port the rest
(no newline in the port). -/
theorem parseHostPort_plain_port {h p : List Nat}
    (hne : h ≠ []) (hch : ∀ c ∈ h, c ≠ 58 ∧ c ≠ 91 ∧ c ≠ 93)
    (hp10 : 10 ∉ p) :
    parseHostPort (h ++ 58 :: p) = some (h, some p) := by
  rcases h with _ | ⟨c, t⟩
  · exact absurd rfl hne
  · rw [List.cons_append, parseHostPort]
    have hc := hch c (List.mem_cons_self c t)
    rw [if_pos (by exact_mod_cast hc)]
    have heq : c :: (t ++ 58 :: p) = (c :: t) ++ 58 :: p := rfl
    rw [heq]
    have htw : ((c :: t) ++ 58 :: p).takeWhile (fun x => x ≠ 58 ∧ x ≠ 91 ∧ x ≠ 93) =
        c :: t := by
      rw [takeWhile_append_all (fun x hx => by
        have := hch x hx
        simp [this])]
      rw [List.takeWhile_cons]
      simp
    rw [htw, List.drop_left]
    show Option.map (fun po => ((c :: t), po))
        (if 10 ∈ p then
          if p.getLast? = some 10 ∧ 10 ∉ p.dropLast then some (some p.dropLast)
          else none
        else some (some p)) = some (c :: t, some p)
    rw [if_neg hp10]
    rfl

/-- The authority matcher on an `@`-free netloc applies the host/port
parser directly. -/
theorem serverAuthorityMatch_no_at {s : List Nat} (h64 : 64 ∉ s) :
    serverAuthorityMatch s = (parseHostPort s).map (fun hp => (none, hp.1, hp.2)) := by
  rw [serverAuthorityMatch]
  have htw : s.takeWhile (fun c => c ≠ 64) = s :=
    takeWhile_eq_self (fun x hx => by
      have : x ≠ 64 := fun he => h64 (he ▸ hx)
      simp [this])
  rw [htw, if_pos rfl]

/-- The authority matcher on `userinfo@rest` with `@`-free nonempty
userinfo: the userinfo group captures the text before the first `@`, and
the remainder must parse as `host[:port]`. -/
theorem serverAuthorityMatch_at {ui rest : List Nat} (hne : ui ≠ []) (h64 : 64 ∉ ui) :
    serverAuthorityMatch (ui ++ 64 :: rest) =
      (match parseHostPort rest with
       | some hp => some (some ui, hp.1, hp.2)
       | none => (parseHostPort (ui ++ 64 :: rest)).map (fun hp => (none, hp.1, hp.2))) := by
  rw [serverAuthorityMatch]
  have htw : (ui ++ 64 :: rest).takeWhile (fun c => c ≠ 64) = ui := by
    rw [takeWhile_append_all (fun x hx => by
      have : x ≠ 64 := fun he => h64 (he ▸ hx)
      simp [this])]
    rw [List.takeWhile_cons]
    simp
  rw [htw]
  have hlen : ui.length ≠ (ui ++ 64 :: rest).length := by
    simp
  rw [if_neg hlen, if_neg hne]
  have hdrop : (ui ++ 64 :: rest).drop (ui.length + 1) = rest := by
    rw [← List.drop_drop, List.drop_left]
    rfl
  rw [hdrop]

/-! ## Helper lemmas: `netlocRest` on well-formed hosts -/

/-- A host containing a dot is not all-digits. -/
theorem not_allDigits_of_dot {h : List Nat} (hdot : 46 ∈ h) :
    isAllDigits h = false := by
  rw [isAllDigits]
  rcases hall : h.all isDigitB with _ | _
  · simp
  · have := (List.all_eq_true.mp hall) 46 hdot
    simp [isDigitB] at this

/-- `netlocRest` on a plain host: not all-digits (it contains a dot),
no trailing dot.  The host passes the dot/bracket check and then
`lower(host)` at line 224 raises `TypeError`. -/
theorem netlocRest_plain {scheme host : List Nat} (ui port : Option (List Nat))
    (hdot : 46 ∈ host) (hlast : host.getLast? ≠ some 46) :
    netlocRest scheme ui host port = .error .typeError := by
  have h1 : digitStep host = .ok host := by
    rw [digitStep, if_neg (by rw [not_allDigits_of_dot hdot]; simp)]
  have h2 : stripDot host = host := by rw [stripDot, if_neg hlast]
  have h3 : dotCheck host = .ok () := by rw [dotCheck.eq_def, if_pos hdot]
  rw [netlocRest, h1]
  show netlocChecked scheme ui port (stripDot host) = _
  rw [h2, netlocChecked, h3]
  rfl


/-- `norm_netloc` on `host:port` for a plain host: the regex splits at
the first colon, the host passes the checks, and line 224 raises
`TypeError` before the port is ever compared. -/
theorem norm_netloc_hostport {scheme host port : List Nat}
    (hh : PlainHost host) (hp64 : 64 ∉ port) (hp10 : 10 ∉ port) :
    norm_netloc scheme (host ++ 58 :: port) = .error .typeError := by
  obtain ⟨hne, hch, hdot, hlast⟩ := hh
  have h64 : 64 ∉ host ++ 58 :: port := by
    intro hm
    rcases List.mem_append.mp hm with hm | hm
    · exact (hch 64 hm).2.2.2 rfl
    · rcases List.mem_cons.mp hm with hm | hm
      · simp at hm
      · exact hp64 hm
  rw [norm_netloc, if_neg (by simp [hne])]
  rw [serverAuthorityMatch_no_at h64,
    parseHostPort_plain_port hne
      (fun c hc => ⟨(hch c hc).1, (hch c hc).2.1, (hch c hc).2.2.1⟩) hp10]
  show netlocRest scheme none host (some port) = _
  exact netlocRest_plain none (some port) hdot hlast

set_option maxRecDepth 100000 in
/-- **C6** (counterexample): the claim says the normalized authority of
`www.foo.com:80` under `http` drops the default port and that of
`www.foo.com:8080` keeps the explicit one.  The program produces no
normalized authority at all: after the host passes the dot/bracket
check, `authority = lower(host)` (line 224) calls the string constant
`string.ascii_lowercase` and raises `TypeError`, before the port
comparison at line 231. -/
theorem claim_c6_counterexample :
    norm_netloc (str ("http")) (str ("www.foo.com:80")) = .error .typeError ∧
    norm_netloc (str ("http")) (str ("www.foo.com:8080")) = .error .typeError := by
  exact ⟨by decide, by decide⟩

/-- **C6** (amended): the default-port elision is dead code.  For a
plain host with an explicit port, `norm_netloc` raises `TypeError` at
`lower(host)` (line 224) before the comparison at line 231; in the dead
reattachment expression itself (lines 231-232, embedded as
`netlocFinish`), the port would be kept exactly when it differs
textually from the scheme's registered default and dropped when equal,
with the registered table as in the claim and no entry (hence retention)
for unknown schemes. -/
theorem claim_c6_amended (scheme host port : List Nat)
    (hh : PlainHost host) (hp : port ≠ []) (hp64 : 64 ∉ port) (hp10 : 10 ∉ port) :
    norm_netloc scheme (host ++ 58 :: port) = .error .typeError ∧
    netlocFinish scheme none (some port) host =
      (if defaultPort scheme = some port then host else host ++ 58 :: port) ∧
    defaultPort (str ("http")) = some (str ("80")) ∧
    defaultPort (str ("itms")) = some (str ("80")) ∧
    defaultPort (str ("ws")) = some (str ("80")) ∧
    defaultPort (str ("https")) = some (str ("443")) ∧
    defaultPort (str ("wss")) = some (str ("443")) ∧
    defaultPort (str ("gopher")) = some (str ("70")) ∧
    defaultPort (str ("news")) = some (str ("119")) ∧
    defaultPort (str ("nntp")) = some (str ("119")) ∧
    defaultPort (str ("snews")) = some (str ("563")) ∧
    defaultPort (str ("snntp")) = some (str ("563")) ∧
    defaultPort (str ("ftp")) = some (str ("21")) ∧
    defaultPort (str ("telnet")) = some (str ("23")) ∧
    defaultPort (str ("prospero")) = some (str ("191")) := by
  refine ⟨norm_netloc_hostport hh hp64 hp10, ?_, by decide, by decide, by decide,
    by decide, by decide, by decide, by decide, by decide, by decide, by decide,
    by decide, by decide, by decide⟩
  rw [netlocFinish]
  by_cases hd : defaultPort scheme = some port
  · rw [if_pos hd, if_neg (by simp [hd.symm])]
  · rw [if_neg hd, if_pos ⟨hp, fun he => hd he.symm⟩]

/-- Witness for C6 (amended): under `http`, the program raises
`TypeError` on `example.com:80`; in the dead reattachment expression,
the default `80` would be dropped and `8080` kept. -/
theorem claim_c6_amended_witness :
    norm_netloc (str ("http")) (str ("example.com:80")) = .error .typeError ∧
    netlocFinish (str ("http")) none (some (str ("80"))) (str ("example.com")) =
      str ("example.com") ∧
    netlocFinish (str ("http")) none (some (str ("8080"))) (str ("example.com")) =
      str ("example.com") ++ 58 :: str ("8080") := by
  have h1 := claim_c6_amended (str ("http")) (str ("example.com")) (str ("80"))
    (by decide) (by decide) (by decide) (by decide)
  have h2 := claim_c6_amended (str ("http")) (str ("example.com")) (str ("8080"))
    (by decide) (by decide) (by decide) (by decide)
  refine ⟨?_, ?_, ?_⟩
  · rw [show str ("example.com:80") = str ("example.com") ++ 58 :: str ("80") from
      by decide]
    exact h1.1
  · rw [h1.2.1, if_pos (by decide)]
  · rw [h2.2.1, if_neg (by decide)]

/-- **C10** (counterexample): the implicit claim says port `080` under
`http` (numerically 80, textually different) is retained in the
normalized authority.  No authority is produced: `norm_netloc` raises
`TypeError` at `lower(host)` (line 224) before the comparison. -/
theorem claim_c10_counterexample :
    norm_netloc (str ("http")) (str ("example.com:080")) = .error .typeError := by
  decide

/-- **C10** (amended): the retention is dead code, but the comparison in
it is textual.  `norm_netloc` raises `TypeError` before line 231; in the
dead reattachment expression (lines 231-232, embedded as
`netlocFinish`), a nonempty port numerically equal but textually
different from the scheme's registered default would be retained. -/
theorem claim_c10_amended (scheme host port d : List Nat)
    (hh : PlainHost host) (hd : defaultPort scheme = some d) (hne : port ≠ d)
    (hnum : natOfDigits port = natOfDigits d)
    (hp : port ≠ []) (hp64 : 64 ∉ port) (hp10 : 10 ∉ port) :
    norm_netloc scheme (host ++ 58 :: port) = .error .typeError ∧
    netlocFinish scheme none (some port) host = host ++ 58 :: port := by
  refine ⟨norm_netloc_hostport hh hp64 hp10, ?_⟩
  rw [netlocFinish, if_pos ⟨hp, by simp [hd, hne]⟩]

/-- Witness for C10 (amended): scheme `http`, port `080` (numerically
equal to the default `80`, textually different): the program raises
`TypeError`; the dead expression would retain `:080`. -/
theorem claim_c10_amended_witness :
    norm_netloc (str ("http")) (str ("example.com") ++ 58 :: str ("080")) =
      .error .typeError ∧
    netlocFinish (str ("http")) none (some (str ("080"))) (str ("example.com")) =
      str ("example.com") ++ 58 :: str ("080") :=
  claim_c10_amended (str ("http")) (str ("example.com")) (str ("080")) (str ("80"))
    (by decide) (by decide) (by decide) (by decide) (by decide) (by decide)
    (by decide)

/-! ## Helper lemmas: soundness of the authority matcher -/

/-- Splitting a list at the end of its `takeWhile` prefix: the next
character falsifies the predicate. -/
theorem takeWhile_split {p : Nat → Bool} :
    ∀ {l : List Nat}, (l.takeWhile p).length ≠ l.length →
      ∃ c rest, p c = false ∧ l = l.takeWhile p ++ c :: rest := by
  intro l
  induction l with
  | nil => intro h; simp at h
  | cons a t ih =>
    intro h
    by_cases hp : p a = true
    · rw [List.takeWhile_cons, if_pos hp] at h ⊢
      simp only [List.length_cons] at h
      obtain ⟨c, rest, hc, he⟩ := ih (fun he2 => h (by rw [he2]))
      exact ⟨c, rest, hc, by rw [List.cons_append, ← he]⟩
    · rw [Bool.not_eq_true] at hp
      refine ⟨a, t, hp, ?_⟩
      rw [List.takeWhile_cons, hp]
      simp

/-- Soundness of the `(?:\:(.*?))?$` compilation: a successful match
reconstructs the input (up to a trailing newline consumed by `$`) and the
captured port is newline-free. -/
theorem afterHost_sound {rest : List Nat} {po : Option (List Nat)}
    (h : afterHost rest = some po) :
    ∃ suffix, (suffix = [] ∨ suffix = [10]) ∧
      rest = (match po with | some p => 58 :: (p ++ suffix) | none => suffix) ∧
      (∀ p, po = some p → 10 ∉ p) := by
  rw [afterHost] at h
  by_cases h0 : rest = []
  · rw [if_pos h0] at h
    obtain rfl : po = none := (Option.some.inj h).symm
    exact ⟨[], Or.inl rfl, by simpa using h0, by simp⟩
  · rw [if_neg h0] at h
    by_cases h1 : rest = [10]
    · rw [if_pos h1] at h
      obtain rfl : po = none := (Option.some.inj h).symm
      exact ⟨[10], Or.inr rfl, by simpa using h1, by simp⟩
    · rw [if_neg h1] at h
      by_cases h58 : rest.head? = some 58
      · rw [if_pos h58] at h
        rcases rest with _ | ⟨c, p⟩
        · exact absurd rfl h0
        · obtain rfl : c = 58 := Option.some.inj h58
          have ht : (58 :: p).tail = p := rfl
          rw [ht] at h
          by_cases hm : 10 ∈ p
          · rw [if_pos hm] at h
            by_cases hl2 : p.getLast? = some 10 ∧ 10 ∉ p.dropLast
            · rw [if_pos hl2] at h
              obtain rfl : po = some p.dropLast := (Option.some.inj h).symm
              refine ⟨[10], Or.inr rfl, ?_, ?_⟩
              · have hpne : p ≠ [] := by
                  intro he
                  rw [he] at hm
                  exact absurd hm (List.not_mem_nil 10)
                have hg : p.getLast hpne = 10 := by
                  have h2 := List.getLast?_eq_getLast p hpne
                  rw [hl2.1] at h2
                  exact (Option.some.inj h2).symm
                have h3 := List.dropLast_append_getLast hpne
                rw [hg] at h3
                simp [h3]
              · intro q hq
                obtain rfl : q = p.dropLast := (Option.some.inj hq).symm
                exact hl2.2
            · rw [if_neg hl2] at h
              exact absurd h (by simp)
          · rw [if_neg hm] at h
            obtain rfl : po = some p := (Option.some.inj h).symm
            refine ⟨[], Or.inl rfl, by simp, ?_⟩
            intro q hq
            obtain rfl : q = p := (Option.some.inj hq).symm
            exact hm
      · rw [if_neg h58] at h
        exact absurd h (by simp)

/-- Soundness of the host/port parser: a successful match reconstructs
the input; the host is colon/bracket-free or a bracketed IPv6 literal;
the port is newline-free. -/
theorem parseHostPort_sound {t host : List Nat} {po : Option (List Nat)}
    (h : parseHostPort t = some (host, po)) :
    (∃ suffix, (suffix = [] ∨ suffix = [10]) ∧
      t = host ++ (match po with | some p => 58 :: (p ++ suffix) | none => suffix)) ∧
    ((host ≠ [] ∧ ∀ c ∈ host, c ≠ 58 ∧ c ≠ 91 ∧ c ≠ 93) ∨
      (∃ inner, inner ≠ [] ∧ (∀ c ∈ inner, ipv6Char c = true) ∧
        host = 91 :: (inner ++ [93]))) ∧
    (∀ p, po = some p → 10 ∉ p) := by
  rcases t with _ | ⟨c, t2⟩
  · exact absurd h (by simp [parseHostPort])
  · rw [parseHostPort] at h
    by_cases hc : c ≠ 58 ∧ c ≠ 91 ∧ c ≠ 93
    · rw [if_pos hc] at h
      rcases hah : afterHost ((c :: t2).drop
          ((c :: t2).takeWhile (fun x => x ≠ 58 ∧ x ≠ 91 ∧ x ≠ 93)).length) with _ | po2
      · rw [hah] at h
        exact absurd h (by simp)
      · rw [hah] at h
        have h3 : ((c :: t2).takeWhile (fun x => x ≠ 58 ∧ x ≠ 91 ∧ x ≠ 93), po2) =
            (host, po) := Option.some.inj h
        obtain ⟨h4, h5⟩ : (c :: t2).takeWhile (fun x => x ≠ 58 ∧ x ≠ 91 ∧ x ≠ 93) = host ∧
            po2 = po := by
          simpa using h3
        subst h4
        subst h5
        obtain ⟨suffix, hsuf, hrest, hnl⟩ := afterHost_sound hah
        refine ⟨⟨suffix, hsuf, ?_⟩, Or.inl ⟨?_, ?_⟩, hnl⟩
        · conv_lhs => rw [← List.take_append_drop
            ((List.takeWhile (fun x => decide (x ≠ 58 ∧ x ≠ 91 ∧ x ≠ 93)) (c :: t2)).length)
            (c :: t2)]
          rw [← List.prefix_iff_eq_take.mp (List.takeWhile_prefix _), ← hrest]
        · rw [List.takeWhile_cons, if_pos (decide_eq_true hc)]
          simp
        · intro x hx
          have := List.mem_takeWhile_imp hx
          simpa using this
    · rw [if_neg hc] at h
      by_cases hc91 : c = 91
      · rw [if_pos hc91] at h
        by_cases hr : ((c :: t2).drop 1).takeWhile ipv6Char = []
        · rw [if_pos hr] at h
          exact absurd h (by simp)
        · rw [if_neg hr] at h
          split at h
          next rest93 hdrop =>
            rcases hah : afterHost rest93 with _ | po2
            · rw [hah] at h
              exact absurd h (by simp)
            · rw [hah] at h
              have h3 : (91 :: (((c :: t2).drop 1).takeWhile ipv6Char ++ [93]), po2) =
                  (host, po) := Option.some.inj h
              obtain ⟨h4, h5⟩ : 91 :: (((c :: t2).drop 1).takeWhile ipv6Char ++ [93]) = host ∧
                  po2 = po := by
                simpa using h3
              subst h4
              subst h5
              obtain ⟨suffix, hsuf, hrest, hnl⟩ := afterHost_sound hah
              refine ⟨⟨suffix, hsuf, ?_⟩, Or.inr ⟨_, hr, ?_, rfl⟩, hnl⟩
              · subst hc91
                have ht2 : t2 = t2.takeWhile ipv6Char ++ t2.drop (t2.takeWhile ipv6Char).length := by
                  conv_lhs => rw [← List.take_append_drop (t2.takeWhile ipv6Char).length t2]
                  rw [← List.prefix_iff_eq_take.mp (List.takeWhile_prefix _)]
                have hdrop2 : t2.drop (t2.takeWhile ipv6Char).length = 93 :: rest93 := by
                  have : (91 :: t2).drop (1 + (t2.takeWhile ipv6Char).length) =
                      t2.drop (t2.takeWhile ipv6Char).length := by
                    rw [show (1 : Nat) + (t2.takeWhile ipv6Char).length =
                      (t2.takeWhile ipv6Char).length + 1 from by omega]
                    rfl
                  rw [← this]
                  exact hdrop
                conv_lhs => rw [ht2, hdrop2]
                rw [hrest]
                simp
              · intro x hx
                exact List.mem_takeWhile_imp hx
          next => exact absurd h (by simp)
      · rw [if_neg hc91] at h
        exact absurd h (by simp)

/-- **C5** (counterexample): the claim says the netloc is split on the
LAST unescaped `@`.  The regex group `([^\@]+)\@` cannot cross an `@`,
so the split at line 210 happens at the FIRST `@`: in `a@B@c.com` the
userinfo group is `a` (not `a@B`) and the host group is `B@c.com`.  The
pipeline then raises `TypeError` at `lower(host)` (line 224). -/
theorem claim_c5_counterexample :
    serverAuthorityMatch (str ("a@B@c.com")) =
      some (some (str ("a")), str ("B@c.com"), none) ∧
    str ("a") ≠ str ("a@B") ∧
    norm_netloc (str ("http")) (str ("a@B@c.com")) = .error .typeError := by
  exact ⟨by decide, by decide, by decide⟩

/-- **C5** (amended): a successful authority match decomposes the netloc
as `[userinfo@]host[:port]` where the userinfo (when present) is the
nonempty text before the FIRST `@` (it contains no `@`), the host is
either a maximal colon/bracket-free run or a bracketed IPv6 literal, and
the port is everything after the first `:` following the host, up to the
end (a single trailing newline may be consumed by the `$` anchor and the
port never contains a newline). -/
theorem claim_c5_amended (s : List Nat) (ui : Option (List Nat)) (host : List Nat)
    (po : Option (List Nat)) (h : serverAuthorityMatch s = some (ui, host, po)) :
    (∃ suffix, (suffix = [] ∨ suffix = [10]) ∧
      s = (match ui with | some u => u ++ [64] | none => []) ++ host ++
        (match po with | some p => 58 :: (p ++ suffix) | none => suffix)) ∧
    (∀ u, ui = some u → u ≠ [] ∧ 64 ∉ u) ∧
    ((host ≠ [] ∧ ∀ c ∈ host, c ≠ 58 ∧ c ≠ 91 ∧ c ≠ 93) ∨
      (∃ inner, inner ≠ [] ∧ (∀ c ∈ inner, ipv6Char c = true) ∧
        host = 91 :: (inner ++ [93]))) ∧
    (∀ p, po = some p → 10 ∉ p) := by
  rw [serverAuthorityMatch] at h
  by_cases hl : (s.takeWhile (fun c => c ≠ 64)).length = s.length
  · rw [if_pos hl] at h
    rcases hph : parseHostPort s with _ | ⟨h1a, h2a⟩
    · rw [hph] at h
      exact absurd h (by simp)
    · rw [hph] at h
      have h3 : ((none : Option (List Nat)), h1a, h2a) = (ui, host, po) :=
        Option.some.inj h
      obtain ⟨h4, h5, h6⟩ : (none : Option (List Nat)) = ui ∧ h1a = host ∧ h2a = po := by
        simpa using h3
      subst h4
      subst h5
      subst h6
      obtain ⟨hrec, hhost, hnl⟩ := parseHostPort_sound hph
      obtain ⟨suffix, hsuf, heq⟩ := hrec
      exact ⟨⟨suffix, hsuf, by simpa using heq⟩, by simp, hhost, hnl⟩
  · rw [if_neg hl] at h
    by_cases hp0 : s.takeWhile (fun c => c ≠ 64) = []
    · rw [if_pos hp0] at h
      rcases hph : parseHostPort s with _ | ⟨h1a, h2a⟩
      · rw [hph] at h
        exact absurd h (by simp)
      · rw [hph] at h
        have h3 : ((none : Option (List Nat)), h1a, h2a) = (ui, host, po) :=
          Option.some.inj h
        obtain ⟨h4, h5, h6⟩ : (none : Option (List Nat)) = ui ∧ h1a = host ∧
            h2a = po := by
          simpa using h3
        subst h4
        subst h5
        subst h6
        obtain ⟨hrec, hhost, hnl⟩ := parseHostPort_sound hph
        obtain ⟨suffix, hsuf, heq⟩ := hrec
        exact ⟨⟨suffix, hsuf, by simpa using heq⟩, by simp, hhost, hnl⟩
    · rw [if_neg hp0] at h
      obtain ⟨c0, rest0, hc0, hsplit⟩ := takeWhile_split hl
      have hc64 : c0 = 64 := by simpa using hc0
      subst hc64
      set q := s.takeWhile (fun c => c ≠ 64) with hqdef
      have hdrop : s.drop (q.length + 1) = rest0 := by
        conv_lhs => rw [hsplit]
        rw [← List.drop_drop, List.drop_left]
        rfl
      rw [hdrop] at h
      rcases hph : parseHostPort rest0 with _ | ⟨h1a, h2a⟩
      · rw [hph] at h
        rcases hph2 : parseHostPort s with _ | ⟨h1b, h2b⟩
        · rw [hph2] at h
          exact absurd h (by simp)
        · rw [hph2] at h
          have h3 : ((none : Option (List Nat)), h1b, h2b) = (ui, host, po) :=
            Option.some.inj h
          obtain ⟨h4, h5, h6⟩ : (none : Option (List Nat)) = ui ∧ h1b = host ∧
              h2b = po := by
            simpa using h3
          subst h4
          subst h5
          subst h6
          obtain ⟨hrec, hhost, hnl⟩ := parseHostPort_sound hph2
          obtain ⟨suffix, hsuf, heq⟩ := hrec
          exact ⟨⟨suffix, hsuf, by simpa using heq⟩, by simp, hhost, hnl⟩
      · rw [hph] at h
        have h3 : (some q, h1a, h2a) = (ui, host, po) := Option.some.inj h
        obtain ⟨h4, h5, h6⟩ : some q = ui ∧ h1a = host ∧ h2a = po := by
          simpa using h3
        subst h4
        subst h5
        subst h6
        obtain ⟨hrec, hhost, hnl⟩ := parseHostPort_sound hph
        obtain ⟨suffix, hsuf, heq⟩ := hrec
        refine ⟨⟨suffix, hsuf, ?_⟩, ?_, hhost, hnl⟩
        · rw [hsplit, heq]
          simp
        · intro u hu
          obtain rfl : u = q := (Option.some.inj hu).symm
          refine ⟨hp0, fun hm => ?_⟩
          rw [hqdef] at hm
          have := List.mem_takeWhile_imp hm
          simp at this

/-- Witness for C5 (amended) at the netloc `u@h.i:99`. -/
theorem claim_c5_amended_witness :
    (∃ suffix, (suffix = [] ∨ suffix = [10]) ∧
      str ("u@h.i:99") =
        (match some (str ("u")) with | some u => u ++ [64] | none => []) ++
          str ("h.i") ++
          (match some (str ("99")) with
           | some p => 58 :: (p ++ suffix)
           | none => suffix)) ∧
    (∀ u, some (str ("u")) = some u → u ≠ [] ∧ 64 ∉ u) ∧
    ((str ("h.i") ≠ [] ∧ ∀ c ∈ str ("h.i"), c ≠ 58 ∧ c ≠ 91 ∧ c ≠ 93) ∨
      (∃ inner, inner ≠ [] ∧ (∀ c ∈ inner, ipv6Char c = true) ∧
        str ("h.i") = 91 :: (inner ++ [93]))) ∧
    (∀ p, some (str ("99")) = some p → 10 ∉ p) :=
  claim_c5_amended (str ("u@h.i:99")) (some (str ("u"))) (str ("h.i"))
    (some (str ("99"))) (by decide)

/-! ## Helper lemmas: IDN label decoding -/

/-- Digits emitted by the fuel loop are decimal digit characters. -/
theorem natReprGo_digits :
    ∀ (fuel n : Nat) (c : Nat), c ∈ natReprGo fuel n → 48 ≤ c ∧ c ≤ 57 := by
  intro fuel
  induction fuel with
  | zero => intro n c hc; exact absurd hc (List.not_mem_nil c)
  | succ f ih =>
    intro n c hc
    rw [natReprGo] at hc
    by_cases hn : n < 10
    · rw [if_pos hn] at hc
      have : c = 48 + n := by simpa using hc
      omega
    · rw [if_neg hn] at hc
      rcases List.mem_append.mp hc with hm | hm
      · exact ih (n / 10) c hm
      · have : c = 48 + n % 10 := by simpa using hm
        have := Nat.mod_lt n (show 0 < 10 from by omega)
        omega

/-- Digits of a decimal representation. -/
theorem natRepr_digits {n c : Nat} (hc : c ∈ natRepr n) : 48 ≤ c ∧ c ≤ 57 :=
  natReprGo_digits (n + 1) n c hc

/-- Decimal representations are nonempty. -/
theorem natRepr_ne_nil (n : Nat) : natRepr n ≠ [] := by
  rw [natRepr, natReprGo]
  by_cases hn : n < 10
  · rw [if_pos hn]
    simp
  · rw [if_neg hn]
    simp

/-- The last character of a dotted quad is a digit. -/
theorem quad_getLast (a b c d : Nat) :
    ∃ x, (natRepr a ++ 46 :: natRepr b ++ 46 :: natRepr c ++
        46 :: natRepr d).getLast? = some x ∧ 48 ≤ x ∧ x ≤ 57 := by
  have hne : natRepr d ≠ [] := natRepr_ne_nil d
  refine ⟨(natRepr d).getLast hne, ?_, natRepr_digits (List.getLast_mem hne)⟩
  rw [show (natRepr a ++ 46 :: natRepr b ++ 46 :: natRepr c ++ 46 :: natRepr d) =
      (natRepr a ++ 46 :: natRepr b ++ 46 :: natRepr c ++ [46]) ++ natRepr d by
    simp]
  rw [List.getLast?_append_of_ne_nil _ hne]
  exact List.getLast?_eq_getLast _ hne

/-- A dotted quad has no trailing dot to strip. -/
theorem quad_strip (a b c d : Nat) :
    stripDot (natRepr a ++ 46 :: natRepr b ++ 46 :: natRepr c ++ 46 :: natRepr d) =
      natRepr a ++ 46 :: natRepr b ++ 46 :: natRepr c ++ 46 :: natRepr d := by
  obtain ⟨x, hx, hx1, hx2⟩ := quad_getLast a b c d
  rw [stripDot, if_neg]
  rw [hx]
  intro hcon
  obtain rfl : x = 46 := by simpa using hcon
  omega

/-- A dotted quad contains a dot. -/
theorem quad_mem_dot (a b c d : Nat) :
    46 ∈ natRepr a ++ 46 :: natRepr b ++ 46 :: natRepr c ++ 46 :: natRepr d := by
  simp

/-- Error classification of the netloc pipeline after a successful
authority match: the result is `InvalidUrl` exactly when the host is
all-digits and out of the 32-bit range, or the stripped host is
nonempty, dotless and not bracket-shaped.  Every host that passes the
dot/bracket check instead hits the `TypeError` of `lower(host)`
(line 224), and an empty stripped dotless host raises `IndexError`. -/
theorem netlocRest_invalid (scheme : List Nat) (ui : Option (List Nat))
    (host0 : List Nat) (po : Option (List Nat)) :
    (match netlocRest scheme ui host0 po with
     | .error .invalidUrl => true
     | _ => false) =
    (if isAllDigits host0 then decide (4294967295 < natOfDigits host0)
     else
       decide (46 ∉ stripDot host0) && decide (stripDot host0 ≠ []) &&
         !(decide ((stripDot host0).head? = some 91 ∧
            (stripDot host0).getLast? = some 93))) := by
  have hdead : ∀ h : List Nat, netlocIdn scheme ui po h = .error .typeError :=
    fun h => rfl
  rcases hd : isAllDigits host0 with _ | _
  · -- not all digits
    have h1 : digitStep host0 = .ok host0 := by
      rw [digitStep, if_neg (by rw [hd]; simp)]
    have hnr : netlocRest scheme ui host0 po =
        netlocChecked scheme ui po (stripDot host0) := by
      rw [netlocRest, h1]
    rw [hnr, if_neg (by simp)]
    by_cases hdot : 46 ∈ stripDot host0
    · have hdc : dotCheck (stripDot host0) = .ok () := by
        rw [dotCheck.eq_def, if_pos hdot]
      have hval : netlocChecked scheme ui po (stripDot host0) =
          .error .typeError := by
        rw [netlocChecked, hdc, hdead]
      rw [hval]
      simp [hdot]
    · rcases hsd : stripDot host0 with _ | ⟨c, t⟩
      · have hval : netlocChecked scheme ui po ([] : List Nat) =
            .error .indexError := by
          rw [netlocChecked, dotCheck.eq_def, if_neg (by simp)]
        rw [hval]
        simp
      · rw [hsd] at hdot
        by_cases hbr : c = 91 ∧ ((c : Nat) :: t).getLast? = some 93
        · have hdc : dotCheck (c :: t) = .ok () := by
            have heq : dotCheck (c :: t) =
                if c = 91 ∧ ((c : Nat) :: t).getLast? = some 93 then .ok ()
                else .error .invalidUrl := by
              rw [dotCheck.eq_def, if_neg hdot]
            rw [heq, if_pos hbr]
          have hval : netlocChecked scheme ui po (c :: t) = .error .typeError := by
            rw [netlocChecked, hdc, hdead]
          rw [hval]
          obtain ⟨hc91, hl93⟩ := hbr
          subst hc91
          simp [hl93, hdot]
        · have hdc : dotCheck (c :: t) = .error .invalidUrl := by
            have heq : dotCheck (c :: t) =
                if c = 91 ∧ ((c : Nat) :: t).getLast? = some 93 then .ok ()
                else .error .invalidUrl := by
              rw [dotCheck.eq_def, if_neg hdot]
            rw [heq, if_neg hbr]
          have hval : netlocChecked scheme ui po (c :: t) = .error .invalidUrl := by
            rw [netlocChecked, hdc]
          rw [hval]
          have hnb : (decide (((c : Nat) :: t).head? = some 91 ∧
              ((c : Nat) :: t).getLast? = some 93)) = false := by
            apply decide_eq_false
            rw [List.head?_cons]
            intro hpair
            exact hbr ⟨by simpa using hpair.1, hpair.2⟩
          rw [hnb]
          simp [hdot]
  · -- all digits
    rw [if_pos (rfl : (true : Bool) = true)]
    by_cases hle : natOfDigits host0 ≤ 4294967295
    · have hrange : ¬ ((MAX_IP : Int) < Int.ofNat (natOfDigits host0) ∨
          Int.ofNat (natOfDigits host0) < 0) := by
        simp only [MAX_IP, Int.ofNat_eq_natCast]
        omega
      have hds : digitStep host0 = .ok
          (natRepr (natOfDigits host0 >>> 24) ++
            46 :: natRepr (natOfDigits host0 >>> 16 &&& 255) ++
            46 :: natRepr (natOfDigits host0 >>> 8 &&& 255) ++
            46 :: natRepr (natOfDigits host0 &&& 255)) := by
        rw [digitStep, if_pos hd, int2ip, if_neg hrange]
        rfl
      set Q := natRepr (natOfDigits host0 >>> 24) ++
          46 :: natRepr (natOfDigits host0 >>> 16 &&& 255) ++
          46 :: natRepr (natOfDigits host0 >>> 8 &&& 255) ++
          46 :: natRepr (natOfDigits host0 &&& 255) with hQdef
      have hstrip : stripDot Q = Q := by rw [hQdef]; exact quad_strip _ _ _ _
      have hdc : dotCheck Q = .ok () := by
        rw [dotCheck.eq_def, if_pos (by rw [hQdef]; exact quad_mem_dot _ _ _ _)]
      have hval : netlocRest scheme ui host0 po = .error .typeError := by
        rw [netlocRest, hds]
        show netlocChecked scheme ui po (stripDot Q) = _
        rw [hstrip, netlocChecked, hdc, hdead]
      rw [hval]
      have hlt : ¬ (4294967295 < natOfDigits host0) := by omega
      simp [hlt]
    · have hrange : (MAX_IP : Int) < Int.ofNat (natOfDigits host0) ∨
          Int.ofNat (natOfDigits host0) < 0 := by
        simp only [MAX_IP, Int.ofNat_eq_natCast]
        omega
      have hds : digitStep host0 = .error .invalidUrl := by
        rw [digitStep, if_pos hd, int2ip, if_pos hrange]
      have hval : netlocRest scheme ui host0 po = .error .invalidUrl := by
        rw [netlocRest, hds]
      rw [hval]
      have hlt : 4294967295 < natOfDigits host0 := by omega
      simp [hlt]

/-- **C9** (counterexample): the claim says `norm` raises
`InvalidUrlError` exactly on its listed conditions — so a missing scheme
should raise it, and a well-formed URL should raise nothing.  In fact
`norm_tuple` raises `TypeError` on every input: its first statement
`scheme = lower(scheme)` (line 160) calls the string constant
`string.ascii_lowercase`. -/
theorem claim_c9_counterexample :
    norm_tuple [] (str ("e.com")) (str ("/")) [] [] [] = .error .typeError ∧
    norm_tuple (str ("http")) (str ("example.com")) (str ("/")) [] [] [] =
      .error .typeError := by
  exact ⟨rfl, rfl⟩

/-- **C9** (amended): `norm_tuple` — and hence `norm` — raises
`TypeError` on every input at `lower(scheme)` (line 160), before any of
the claim's conditions is checked, so it never raises `InvalidUrlError`
at all.  At the `norm_netloc` level (lines 203-222, before the
`TypeError` of line 224), `InvalidUrl` is raised exactly when the
nonempty netloc fails the authority regex, an all-digits host exceeds
the 32-bit range, or the stripped host is nonempty, dotless and not
bracket-shaped; an empty stripped dotless host raises `IndexError`, and
every host that passes the checks raises `TypeError`. -/
theorem claim_c9_amended (scheme netloc path params query fragment : List Nat) :
    norm_tuple scheme netloc path params query fragment = .error .typeError ∧
    ((match norm_netloc scheme netloc with
      | .error .invalidUrl => true
      | _ => false) = raisesInvalidB netloc) := by
  refine ⟨rfl, ?_⟩
  by_cases hn : netloc = []
  · subst hn
    have h1 : norm_netloc scheme [] = .ok [] := rfl
    rw [h1, raisesInvalidB]
    simp
  · rcases hsam : serverAuthorityMatch netloc with _ | ⟨ui, host0, po⟩
    · have h1 : norm_netloc scheme netloc = .error .invalidUrl := by
        rw [norm_netloc, if_neg hn, hsam]
      rw [h1, raisesInvalidB, hsam, decide_eq_true hn]
      rfl
    · have h1 : norm_netloc scheme netloc = netlocRest scheme ui host0 po := by
        rw [norm_netloc, if_neg hn, hsam]
      rw [h1, netlocRest_invalid, raisesInvalidB, hsam, decide_eq_true hn,
        Bool.true_and]

/-- **C1** (code bug): line 51 binds `lower = string.ascii_lowercase`, a
string constant (the `try` import always succeeds, in Python 2 and 3
alike), so `norm_tuple`'s first statement `scheme = lower(scheme)`
(line 160) raises `TypeError: 'str' object is not callable` and `norm`
returns nothing on any input.  No URL is "accepted by norm without
error", so the idempotence the spec promises can never be exercised. -/
theorem claim_c1_code_bug (url : List Nat) : norm url = .error .typeError := rfl

end Urlnorm
